import Mathlib

/-!
# CSRFPlus — verification of the token lifecycle and verification engine

A shallow embedding, in Lean 4, of the core of the `csrf-plus` Node.js
library: the URL-safe base64 text codec (`src/utils/b64url.js`), the
constant-time comparison helper (`src/utils/cryptoHelpers.js`), the
in-memory secret store (`src/storage/memory.js`), the mask codec
(`src/token/mask.js`), the stateless signed-token codec
(`src/token/stateless.js`, including a bit-faithful executable
SHA-256 / HMAC-SHA256), and the request-verification middleware
(`src/middleware.js`).

JavaScript strings are modelled as `List Char`, byte buffers as
`List Nat` with every element `< 256`, and `Date.now()` as an explicit
integer parameter.  JSON numbers are modelled as integers: the payloads
this library mints (`iat`, `exp` epoch milliseconds) are integral.
-/

set_option maxRecDepth 8192

namespace CSRFPlus

/-- A byte buffer: a list of byte values (each intended `< 256`). -/
abbrev Bytes := List Nat

/-- A JavaScript string, modelled as its list of characters. -/
abbrev JStr := List Char

/-! ## Text codec — `src/utils/b64url.js`

`encode` is Node's `buf.toString('base64')` followed by
`+`→`-`, `/`→`_` and stripping of trailing `=`; `decode` reverses the
character substitution, restores `=` padding to a multiple of four, and
decodes with Node's forgiving base64 decoder (characters outside the
alphabet are ignored; a lone trailing sextet is dropped). -/

/-- The standard base64 alphabet. -/
def b64Alphabet : JStr :=
  "ABCDEFGHIJKLMNOPQRSTUVWXYZabcdefghijklmnopqrstuvwxyz0123456789+/".data

/-- Character for a sextet value. -/
def sextetChar (n : Nat) : Char := b64Alphabet.getD n '?'

/-- Value of a base64 alphabet character; `none` for anything else
(including `=`). -/
def sextetVal (c : Char) : Option Nat :=
  b64Alphabet.indexOf? c

/-- The sextet stream of a byte buffer (base64 without padding). -/
def sextets : Bytes → List Nat
  | [] => []
  | [b0] => [b0 / 4, b0 % 4 * 16]
  | [b0, b1] => [b0 / 4, b0 % 4 * 16 + b1 / 16, b1 % 16 * 4]
  | b0 :: b1 :: b2 :: rest =>
      b0 / 4 :: (b0 % 4 * 16 + b1 / 16) :: (b1 % 16 * 4 + b2 / 64) :: b2 % 64 ::
        sextets rest

/-- Number of `=` padding characters standard base64 appends. -/
def b64PadLen (n : Nat) : Nat := (3 - n % 3) % 3

/-- Node's `buf.toString('base64')`: sextet characters plus `=` padding. -/
def toBase64 (b : Bytes) : JStr :=
  (sextets b).map sextetChar ++ List.replicate (b64PadLen b.length) '='

/-- The `+`→`-`, `/`→`_` substitution done by `encode`. -/
def substEnc (c : Char) : Char :=
  if c = '+' then '-' else if c = '/' then '_' else c

/-- The `-`→`+`, `_`→`/` substitution done by `decode`. -/
def substDec (c : Char) : Char :=
  if c = '-' then '+' else if c = '_' then '/' else c

/-- Strip all trailing `=` characters (the `replace(/=+$/, '')`). -/
def stripTrailingEq (s : JStr) : JStr :=
  (s.reverse.dropWhile (· = '=')).reverse

/-- `encode` from `src/utils/b64url.js`. -/
def encode (buf : Bytes) : JStr :=
  stripTrailingEq ((toBase64 buf).map substEnc)

/-- Append `=` until the length is a multiple of four
(the `while (str.length % 4) str += '='` loop). -/
def padTo4 (s : JStr) : JStr :=
  s ++ List.replicate ((4 - s.length % 4) % 4) '='

/-- Decode a sextet stream into bytes, four sextets to three bytes, with
partial final groups of three / two sextets giving two / one bytes and a
lone sextet dropped (Node's behavior). -/
def decodeQuads : List Nat → Bytes
  | s0 :: s1 :: s2 :: s3 :: rest =>
      (s0 * 4 + s1 / 16) :: (s1 % 16 * 16 + s2 / 4) :: (s2 % 4 * 64 + s3) ::
        decodeQuads rest
  | [s0, s1, s2] => [s0 * 4 + s1 / 16, s1 % 16 * 16 + s2 / 4]
  | [s0, s1] => [s0 * 4 + s1 / 16]
  | _ => []

/-- Node's `Buffer.from(str, 'base64')`: ignore characters outside the
alphabet (`=` included) and decode the sextet stream. -/
def bufferFromBase64 (s : JStr) : Bytes :=
  decodeQuads (s.filterMap sextetVal)

/-- `decode` from `src/utils/b64url.js`. -/
def decode (str : JStr) : Bytes :=
  bufferFromBase64 (padTo4 (str.map substDec))

/-! ## SHA-256 and HMAC-SHA256 — the `crypto.createHmac('sha256', key)` calls

A bit-faithful executable SHA-256 over byte lists, 32-bit words as
`Nat` reduced mod `2^32`. -/

/-- Reduce to a 32-bit word. -/
def w32 (n : Nat) : Nat := n % 4294967296

/-- Rotate a 32-bit word right by `n`. -/
def rotr32 (x n : Nat) : Nat := w32 (x >>> n ||| x <<< (32 - n))

/-- SHA-256 `Σ0`. -/
def bsig0 (x : Nat) : Nat := rotr32 x 2 ^^^ rotr32 x 13 ^^^ rotr32 x 22

/-- SHA-256 `Σ1`. -/
def bsig1 (x : Nat) : Nat := rotr32 x 6 ^^^ rotr32 x 11 ^^^ rotr32 x 25

/-- SHA-256 `σ0`. -/
def ssig0 (x : Nat) : Nat := rotr32 x 7 ^^^ rotr32 x 18 ^^^ (x >>> 3)

/-- SHA-256 `σ1`. -/
def ssig1 (x : Nat) : Nat := rotr32 x 17 ^^^ rotr32 x 19 ^^^ (x >>> 10)

/-- SHA-256 `Ch` (complement as xor with the all-ones word). -/
def chF (x y z : Nat) : Nat := (x &&& y) ^^^ ((x ^^^ 0xffffffff) &&& z)

/-- SHA-256 `Maj`. -/
def majF (x y z : Nat) : Nat := (x &&& y) ^^^ (x &&& z) ^^^ (y &&& z)

/-- The 64 SHA-256 round constants. -/
def sha256K : List Nat := [
  1116352408, 1899447441, 3049323471, 3921009573, 961987163,
  1508970993, 2453635748, 2870763221, 3624381080, 310598401,
  607225278, 1426881987, 1925078388, 2162078206, 2614888103,
  3248222580, 3835390401, 4022224774, 264347078, 604807628,
  770255983, 1249150122, 1555081692, 1996064986, 2554220882,
  2821834349, 2952996808, 3210313671, 3336571891, 3584528711,
  113926993, 338241895, 666307205, 773529912, 1294757372,
  1396182291, 1695183700, 1986661051, 2177026350, 2456956037,
  2730485921, 2820302411, 3259730800, 3345764771, 3516065817,
  3600352804, 4094571909, 275423344, 430227734, 506948616,
  659060556, 883997877, 958139571, 1322822218, 1537002063,
  1747873779, 1955562222, 2024104815, 2227730452, 2361852424,
  2428436474, 2756734187, 3204031479, 3329325298]

/-- The SHA-256 initial hash value. -/
def sha256H0 : List Nat := [
  1779033703, 3144134277, 1013904242, 2773480762,
  1359893119, 2600822924, 528734635, 1541459225]

/-- Big-endian bytes to 32-bit words, four at a time. -/
def bytesToWords : Bytes → List Nat
  | b0 :: b1 :: b2 :: b3 :: rest =>
      (b0 * 16777216 + b1 * 65536 + b2 * 256 + b3) :: bytesToWords rest
  | _ => []

/-- Big-endian words to bytes. -/
def wordsToBytes : List Nat → Bytes
  | [] => []
  | w :: rest =>
      w / 16777216 % 256 :: w / 65536 % 256 :: w / 256 % 256 :: w % 256 ::
        wordsToBytes rest

/-- The eight bytes of the 64-bit big-endian bit length. -/
def len64 (n : Nat) : Bytes :=
  [n / 72057594037927936 % 256, n / 281474976710656 % 256,
   n / 1099511627776 % 256, n / 4294967296 % 256,
   n / 16777216 % 256, n / 65536 % 256, n / 256 % 256, n % 256]

/-- SHA-256 message padding: `0x80`, zeros to 56 mod 64, 64-bit length. -/
def padMsg (msg : Bytes) : Bytes :=
  msg ++ 0x80 :: List.replicate ((64 + 56 - (msg.length + 1) % 64) % 64) 0 ++
    len64 (msg.length * 8)

/-- Extend a 16-word block to the 64-word message schedule. -/
def extendSchedule (ws : List Nat) : Nat → List Nat
  | 0 => ws
  | n + 1 =>
      extendSchedule
        (ws ++ [w32 (ssig1 (ws.getD (ws.length - 2) 0) + ws.getD (ws.length - 7) 0 +
          ssig0 (ws.getD (ws.length - 15) 0) + ws.getD (ws.length - 16) 0)]) n

/-- One SHA-256 round on the eight-word working state. -/
def roundFn (st : List Nat) (kw : Nat × Nat) : List Nat :=
  match st with
  | [a, b, c, d, e, f, g, h] =>
      let t1 := w32 (h + bsig1 e + chF e f g + kw.1 + kw.2)
      let t2 := w32 (bsig0 a + majF a b c)
      [w32 (t1 + t2), a, b, c, w32 (d + t1), e, f, g]
  | other => other

/-- Compress one 16-word block into the hash state. -/
def compressBlock (h : List Nat) (block : List Nat) : List Nat :=
  let ws := extendSchedule block 48
  let st := (sha256K.zip ws).foldl roundFn h
  (h.zip st).map (fun p => w32 (p.1 + p.2))

/-- Fold the compression over the word stream, 16 words per block
(`fuel` bounds the iteration; `fuel = ws.length` suffices). -/
def sha256Words (h : List Nat) (ws : List Nat) : Nat → List Nat
  | 0 => h
  | fuel + 1 =>
      match ws with
      | [] => h
      | _ => sha256Words (compressBlock h (ws.take 16)) (ws.drop 16) fuel

/-- SHA-256 of a byte list. -/
def sha256 (msg : Bytes) : Bytes :=
  let ws := bytesToWords (padMsg msg)
  wordsToBytes (sha256Words sha256H0 ws ws.length)

/-- HMAC-SHA256 (`RFC 2104` with SHA-256, block size 64). -/
def hmacSha256 (key msg : Bytes) : Bytes :=
  let k0 := if key.length > 64 then sha256 key else key
  let kp := k0 ++ List.replicate (64 - k0.length) 0
  sha256 ((kp.map (fun b => b ^^^ 0x5c)) ++
    sha256 ((kp.map (fun b => b ^^^ 0x36)) ++ msg))

/-! ## UTF-8 — Node's `Buffer.from(str, 'utf8')` and `buf.toString('utf8')` -/

/-- UTF-8 bytes of one character. -/
def utf8Char (c : Char) : Bytes :=
  if c.toNat < 128 then [c.toNat]
  else if c.toNat < 2048 then [192 + c.toNat / 64, 128 + c.toNat % 64]
  else if c.toNat < 65536 then
    [224 + c.toNat / 4096, 128 + c.toNat / 64 % 64, 128 + c.toNat % 64]
  else
    [240 + c.toNat / 262144, 128 + c.toNat / 4096 % 64, 128 + c.toNat / 64 % 64,
     128 + c.toNat % 64]

/-- UTF-8 encoding of a string (`Buffer.from(str, 'utf8')`). -/
def utf8 : JStr → Bytes
  | [] => []
  | c :: rest => utf8Char c ++ utf8 rest

/-- Make a scalar value a `Char`, defaulting to U+FFFD. -/
def toCharRepl (n : Nat) : Char :=
  if n.isValidChar then Char.ofNat n else '�'

/-- UTF-8 decoding worker: well-formed sequences are decoded; an invalid
lead or continuation byte yields U+FFFD and the decoder resynchronises at
the next byte, Node-style.  `fuel ≥ length` suffices, each step consuming
at least one byte. -/
def utf8DecodeFuel : Nat → Bytes → JStr
  | 0, _ => []
  | _, [] => []
  | fuel + 1, b :: rest =>
      if b < 128 then toCharRepl b :: utf8DecodeFuel fuel rest
      else if 192 ≤ b ∧ b < 224 then
        match rest with
        | b1 :: rest1 =>
            if 128 ≤ b1 ∧ b1 < 192 ∧ 194 ≤ b then
              toCharRepl ((b - 192) * 64 + (b1 - 128)) :: utf8DecodeFuel fuel rest1
            else '�' :: utf8DecodeFuel fuel rest
        | [] => ['�']
      else if 224 ≤ b ∧ b < 240 then
        match rest with
        | b1 :: b2 :: rest2 =>
            if 128 ≤ b1 ∧ b1 < 192 ∧ 128 ≤ b2 ∧ b2 < 192 ∧
                2048 ≤ (b - 224) * 4096 + (b1 - 128) * 64 + (b2 - 128) then
              toCharRepl ((b - 224) * 4096 + (b1 - 128) * 64 + (b2 - 128)) ::
                utf8DecodeFuel fuel rest2
            else '�' :: utf8DecodeFuel fuel rest
        | _ => '�' :: utf8DecodeFuel fuel rest
      else if 240 ≤ b ∧ b < 248 then
        match rest with
        | b1 :: b2 :: b3 :: rest3 =>
            if 128 ≤ b1 ∧ b1 < 192 ∧ 128 ≤ b2 ∧ b2 < 192 ∧ 128 ≤ b3 ∧ b3 < 192 ∧
                65536 ≤ (b - 240) * 262144 + (b1 - 128) * 4096 + (b2 - 128) * 64 +
                  (b3 - 128) then
              toCharRepl ((b - 240) * 262144 + (b1 - 128) * 4096 + (b2 - 128) * 64 +
                (b3 - 128)) :: utf8DecodeFuel fuel rest3
            else '�' :: utf8DecodeFuel fuel rest
        | _ => '�' :: utf8DecodeFuel fuel rest
      else '�' :: utf8DecodeFuel fuel rest

/-- `buf.toString('utf8')`. -/
def utf8Decode (b : Bytes) : JStr := utf8DecodeFuel b.length b

/-! ## JSON — the `JSON.parse` / `JSON.stringify` calls

A JSON value; numbers are modelled as integers (the library's payload
fields `iat` and `exp` are integral epoch milliseconds), and the parser
rejects fractional or exponent forms. -/

/-- A JSON value. -/
inductive Json where
  | null : Json
  | bool (b : Bool) : Json
  | num (n : Int) : Json
  | str (s : JStr) : Json
  | arr (xs : List Json) : Json
  | obj (fields : List (JStr × Json)) : Json

/-- JSON whitespace. -/
def isJsonWs (c : Char) : Bool :=
  c = ' ' || c = '\t' || c = '\n' || c = '\r'

/-- Skip JSON whitespace. -/
def skipWs (s : JStr) : JStr := s.dropWhile isJsonWs

/-- The decimal digit characters. -/
def digitChar (d : Nat) : Char := "0123456789".data.getD d '0'

/-- Print a natural number in decimal; `fuel ≥ n + 1` suffices. -/
def printNatFuel : Nat → Nat → JStr
  | 0, _ => []
  | fuel + 1, n =>
      if n < 10 then [digitChar n]
      else printNatFuel fuel (n / 10) ++ [digitChar (n % 10)]

/-- Print a natural number in decimal. -/
def printNat (n : Nat) : JStr := printNatFuel (n + 1) n

/-- Print an integer the way `JSON.stringify` prints an integral number. -/
def printInt (n : Int) : JStr :=
  if n < 0 then '-' :: printNat n.natAbs else printNat n.toNat

/-- Numeric value of a big-endian digit string, folded onto `acc`. -/
def digitsVal (acc : Nat) (l : JStr) : Nat :=
  l.foldl (fun a c => a * 10 + (c.toNat - 48)) acc

/-- The digits part of a JSON number: one or more digits with no
leading zero, valued in `Nat`. -/
def parseNumCore : JStr → Option (Nat × JStr)
  | c :: rest =>
      if c.isDigit then
        if c = '0' then
          match rest with
          | c2 :: _ => if c2.isDigit then none else some (0, rest)
          | [] => some (0, rest)
        else
          some (digitsVal (c.toNat - 48) (rest.takeWhile Char.isDigit),
            rest.dropWhile Char.isDigit)
      else none
  | [] => none

/-- After the digits, a `.`, `e` or `E` would start a fractional or
exponent form, which this integral model rejects. -/
def parseNumTailOk : JStr → Bool
  | c :: _ => !(c = '.' || c = 'e' || c = 'E')
  | [] => true

/-- Parse a JSON number (integral forms only): optional minus, digits
with no leading zero. -/
def parseNumber (s : JStr) : Option (Int × JStr) :=
  match s with
  | [] => none
  | c :: rest =>
      if c = '-' then
        match parseNumCore rest with
        | some (n, t) => if parseNumTailOk t then some (-(n : Int), t) else none
        | none => none
      else
        match parseNumCore (c :: rest) with
        | some (n, t) => if parseNumTailOk t then some ((n : Int), t) else none
        | none => none

/-- Hex digit value. -/
def hexVal (c : Char) : Option Nat :=
  if c.isDigit then some (c.toNat - 48)
  else if 'a' ≤ c ∧ c ≤ 'f' then some (c.toNat - 87)
  else if 'A' ≤ c ∧ c ≤ 'F' then some (c.toNat - 55)
  else none

/-- Parse the body of a JSON string after the opening quote, returning
the content and the remainder after the closing quote.  `\uXXXX` escapes
are decoded as single code units (lone surrogates become U+FFFD). -/
def parseStrChars : Nat → JStr → Option (JStr × JStr)
  | 0, _ => none
  | _, [] => none
  | fuel + 1, c :: rest =>
      if c = '"' then some ([], rest)
      else if c = '\\' then
        match rest with
        | e :: rest1 =>
            if e = '"' then (parseStrChars fuel rest1).map (fun p => ('"' :: p.1, p.2))
            else if e = '\\' then (parseStrChars fuel rest1).map (fun p => ('\\' :: p.1, p.2))
            else if e = '/' then (parseStrChars fuel rest1).map (fun p => ('/' :: p.1, p.2))
            else if e = 'b' then (parseStrChars fuel rest1).map (fun p => ('\x08' :: p.1, p.2))
            else if e = 'f' then (parseStrChars fuel rest1).map (fun p => ('\x0c' :: p.1, p.2))
            else if e = 'n' then (parseStrChars fuel rest1).map (fun p => ('\n' :: p.1, p.2))
            else if e = 'r' then (parseStrChars fuel rest1).map (fun p => ('\r' :: p.1, p.2))
            else if e = 't' then (parseStrChars fuel rest1).map (fun p => ('\t' :: p.1, p.2))
            else if e = 'u' then
              match rest1 with
              | h1 :: h2 :: h3 :: h4 :: rest2 =>
                  match hexVal h1, hexVal h2, hexVal h3, hexVal h4 with
                  | some v1, some v2, some v3, some v4 =>
                      (parseStrChars fuel rest2).map
                        (fun p => (toCharRepl (v1 * 4096 + v2 * 256 + v3 * 16 + v4) :: p.1, p.2))
                  | _, _, _, _ => none
              | _ => none
            else none
        | [] => none
      else if c.toNat < 32 then none
      else (parseStrChars fuel rest).map (fun p => (c :: p.1, p.2))

/-- A parsing task for the single-function JSON parser: a value, the
members of an object after its `{`, or the items of an array after
its `[`. -/
inductive PTask where
  | pv (s : JStr) : PTask
  | pmembers (s : JStr) : PTask
  | pitems (s : JStr) : PTask

/-- A parsing result matching each task. -/
inductive PRes where
  | rv (v : Json) (rest : JStr) : PRes
  | rmembers (fs : List (JStr × Json)) (rest : JStr) : PRes
  | ritems (vs : List Json) (rest : JStr) : PRes

/-- The recursive-descent JSON parser, fueled; `fuel` bounds the number
of recursion steps, each of which consumes at least one character, so
`input length + 1` suffices. -/
def parseCore : Nat → PTask → Option PRes
  | 0, _ => none
  | fuel + 1, .pv s =>
      match skipWs s with
      | [] => none
      | c :: rest =>
          if c = '\x7b' then
            match skipWs rest with
            | '\x7d' :: rest1 => some (.rv (.obj []) rest1)
            | _ =>
                match parseCore fuel (.pmembers rest) with
                | some (.rmembers fs rest1) => some (.rv (.obj fs) rest1)
                | _ => none
          else if c = '[' then
            match skipWs rest with
            | ']' :: rest1 => some (.rv (.arr []) rest1)
            | _ =>
                match parseCore fuel (.pitems rest) with
                | some (.ritems vs rest1) => some (.rv (.arr vs) rest1)
                | _ => none
          else if c = '"' then
            match parseStrChars (rest.length + 1) rest with
            | some (content, rest1) => some (.rv (.str content) rest1)
            | none => none
          else if c = 't' then
            match rest with
            | 'r' :: 'u' :: 'e' :: rest1 => some (.rv (.bool true) rest1)
            | _ => none
          else if c = 'f' then
            match rest with
            | 'a' :: 'l' :: 's' :: 'e' :: rest1 => some (.rv (.bool false) rest1)
            | _ => none
          else if c = 'n' then
            match rest with
            | 'u' :: 'l' :: 'l' :: rest1 => some (.rv .null rest1)
            | _ => none
          else
            match parseNumber (c :: rest) with
            | some (n, rest1) => some (.rv (.num n) rest1)
            | none => none
  | fuel + 1, .pmembers s =>
      match skipWs s with
      | '"' :: rest =>
          match parseStrChars (rest.length + 1) rest with
          | some (key, rest1) =>
              match skipWs rest1 with
              | ':' :: rest2 =>
                  match parseCore fuel (.pv rest2) with
                  | some (.rv v rest3) =>
                      match skipWs rest3 with
                      | ',' :: rest4 =>
                          match parseCore fuel (.pmembers rest4) with
                          | some (.rmembers fs rest5) =>
                              some (.rmembers ((key, v) :: fs) rest5)
                          | _ => none
                      | '\x7d' :: rest4 => some (.rmembers [(key, v)] rest4)
                      | _ => none
                  | _ => none
              | _ => none
          | none => none
      | _ => none
  | fuel + 1, .pitems s =>
      match parseCore fuel (.pv s) with
      | some (.rv v rest) =>
          match skipWs rest with
          | ',' :: rest1 =>
              match parseCore fuel (.pitems rest1) with
              | some (.ritems vs rest2) => some (.ritems (v :: vs) rest2)
              | _ => none
          | ']' :: rest1 => some (.ritems [v] rest1)
          | _ => none
      | _ => none

/-- `JSON.parse` (on the supported fragment): parse one value and
require only whitespace after it. -/
def jsonParse (s : JStr) : Option Json :=
  match parseCore (s.length + 1) (.pv s) with
  | some (.rv v rest) => if skipWs rest = [] then some v else none
  | _ => none

/-- `JSON.stringify({iat, exp})` for integral values: exactly
`{"iat":<iat>,"exp":<exp>}`. -/
def stringifyIatExp (iat exp : Int) : JStr :=
  "\x7b\"iat\":".data ++ printInt iat ++ ",\"exp\":".data ++ printInt exp ++
    "\x7d".data

/-- JavaScript property access `v.name` on a parsed JSON value: `none`
is `undefined`; on objects the last binding of a duplicated key wins. -/
def jsGet (v : Json) : JStr → Option Json :=
  fun name =>
    match v with
    | .obj fields => (fields.reverse.find? (fun p => p.1 == name)).map Prod.snd
    | _ => none

/-- JavaScript truthiness of a JSON value. -/
def jsTruthy : Json → Bool
  | .null => false
  | .bool b => b
  | .num n => n ≠ 0
  | .str s => !s.isEmpty
  | .arr _ => true
  | .obj _ => true

/-- Truthiness of a possibly-`undefined`/`null` value. -/
def jsTruthyOpt : Option Json → Bool
  | none => false
  | some v => jsTruthy v

/-! ## Constant-time comparison — `src/utils/cryptoHelpers.js` -/

/-- A `Buffer | string` argument. -/
inductive BufOrStr where
  | buf (b : Bytes) : BufOrStr
  | str (s : JStr) : BufOrStr

/-- `Buffer.from` on a `Buffer | string` (strings UTF-8 encoded). -/
def toBuffer : BufOrStr → Bytes
  | .buf b => b
  | .str s => utf8 s

/-- `crypto.timingSafeEqual`: throws on a length mismatch, otherwise
compares contents. -/
def timingSafeEqual (a b : Bytes) : Except JStr Bool :=
  if a.length ≠ b.length then
    .error "Input buffers must have the same byte length".data
  else .ok (a == b)

/-- `safeEqual` from `src/utils/cryptoHelpers.js`: convert both inputs
to buffers, return `false` on a length mismatch, else call
`crypto.timingSafeEqual`.  The `Except` layer records whether the
underlying comparison threw. -/
def safeEqual (x y : BufOrStr) : Except JStr Bool :=
  let a := toBuffer x
  let b := toBuffer y
  if a.length ≠ b.length then .ok false
  else timingSafeEqual a b

/-! ## Stateless token codec — `src/token/stateless.js` -/

/-- The result object of `verifySignedToken`. -/
structure VerifyResult where
  ok : Bool
  payload : Option Json

/-- JavaScript `buf.lastIndexOf(byte)`: the last index, or `-1`. -/
def jsLastIndexOf (l : Bytes) (x : Nat) : Int :=
  match l.reverse.indexOf? x with
  | some i => Int.ofNat (l.length - 1 - i)
  | none => -1

/-- `signPayload(payloadStr, key)`: HMAC the payload string, then encode
`utf8(payloadStr) ‖ 0x2E ‖ mac`. -/
def signPayload (payloadStr : JStr) (key : JStr) : JStr :=
  let mac := hmacSha256 (utf8 key) (utf8 payloadStr)
  encode (utf8 payloadStr ++ [0x2E] ++ mac)

/-- `verifySignedToken(tokenStr, key)`: decode, split at the *last*
`0x2E`, recompute the HMAC over the decoded payload text, compare with
`safeEqual`; an exception thrown inside (e.g. by `timingSafeEqual`) is
caught and becomes `{ok:false, payload:null}`. -/
def verifySignedToken (tokenStr : JStr) (key : JStr) : VerifyResult :=
  let raw := decode tokenStr
  let dotIdx := jsLastIndexOf raw 0x2E
  if dotIdx ≤ 0 then ⟨false, none⟩
  else
    let i := dotIdx.toNat
    let payloadBuf := raw.take i
    let macBuf := raw.drop (i + 1)
    let payloadStr := utf8Decode payloadBuf
    let expected := hmacSha256 (utf8 key) (utf8 payloadStr)
    if macBuf.length ≠ expected.length then ⟨false, none⟩
    else
      match safeEqual (.buf macBuf) (.buf expected) with
      | .ok true => ⟨true, jsonParse payloadStr⟩
      | _ => ⟨false, none⟩

/-- `createStatelessToken(ttlMs, key)` with `Date.now()` passed
explicitly as `now`: sign `{"iat":now,"exp":now+ttlMs}`. -/
def createStatelessToken (ttlMs : Int) (key : JStr) (now : Int) : JStr :=
  signPayload (stringifyIatExp now (now + ttlMs)) key

/-! ## Mask codec

`Modelled from the spec:` the file `src/token/mask.js` is not among the
sources (only its tests and its `require` sites are), so `makeMaskedToken`
and `unmaskToken` follow §4.2 of the specification.  The random pad that
`makeMaskedToken(secret)` draws internally is an explicit argument. -/

/-- `makeMaskedToken(secret)` with its random `pad` explicit: encode
`pad ‖ (pad XOR secret)`. -/
def makeMaskedToken (secret pad : Bytes) : JStr :=
  encode (pad ++ List.zipWith Nat.xor pad secret)

/-- `unmaskToken(token)`: decode; fail with `MalformedToken` when the
decoded length is zero or odd; split into halves and XOR them. -/
def unmaskToken (token : JStr) : Except JStr Bytes :=
  let raw := decode token
  if raw.length = 0 ∨ raw.length % 2 = 1 then .error "MalformedToken".data
  else .ok (List.zipWith Nat.xor (raw.take (raw.length / 2))
    (raw.drop (raw.length / 2)))

/-! ## Verification engine — `src/middleware.js`

`verify(req, res, next)` is modelled as a total function from the
configuration, a snapshot of the store (the single awaited
`store.get`), the request, and `Date.now()`, to an outcome: `next()` or
`res.status(code).send(msg)`.  Express's `req.get` is modelled as a
lookup in a lower-cased header association list; the `new URL(...)`
host extraction is modelled by `urlHost` (scheme-prefixed inputs only,
throwing — `none` — otherwise). -/

/-- Engine options after merging (the fields `verify` reads). -/
structure Options where
  cookieName : JStr
  cookieSidName : JStr
  headerName : JStr
  fieldName : JStr
  ttl : Nat
  secretLen : Nat
  mask : Bool
  originCheck : Bool
  allowedMethods : List JStr
  stateless : Bool
  statelessKey : Option JStr
  statelessTTL : Int

/-- An incoming request: `req.session && req.session.id` collapsed to
an optional string, and headers / body / query / cookies as
association lists of strings. -/
structure Request where
  method : JStr
  headers : List (JStr × JStr)
  body : List (JStr × JStr)
  query : List (JStr × JStr)
  cookies : List (JStr × JStr)
  session : Option JStr

/-- `req.get(name)`. -/
def reqGet (r : Request) (name : JStr) : Option JStr :=
  List.lookup name r.headers

/-- JavaScript truthiness of a possibly-absent string. -/
def truthyS : Option JStr → Bool
  | none => false
  | some s => !s.isEmpty

/-- JavaScript `a || b` on optional strings. -/
def jsOrS (a b : Option JStr) : Option JStr :=
  if truthyS a then a else b

/-- Everything after the first `://`. -/
def afterSchemeSep : JStr → Option JStr
  | ':' :: '/' :: '/' :: rest => some rest
  | _ :: rest => afterSchemeSep rest
  | [] => none

/-- The `host` component of `new URL(s)` (model: text between `://` and
the next `/`, `?` or `#`); `none` models the constructor throwing. -/
def urlHost (s : JStr) : Option JStr :=
  match afterSchemeSep s with
  | some rest =>
      let h := rest.takeWhile (fun c => !(c = '/' || c = '?' || c = '#'))
      if h.isEmpty then none else some h
  | none => none

/-- The outcome of the `verify` middleware: `next()`, or
`res.status(code).send(msg)`. -/
inductive Outcome where
  | next : Outcome
  | status (code : Nat) (msg : JStr) : Outcome
deriving DecidableEq

/-- The `verify` route middleware of `src/middleware.js`. -/
def verify (opts : Options) (storeGet : JStr → Option JStr) (req : Request)
    (now : Int) : Outcome :=
  if req.method ∈ opts.allowedMethods then .next
  else
    let originFail : Bool :=
      if opts.originCheck then
        let origin := reqGet req "origin".data
        let referer := reqGet req "referer".data
        let host := reqGet req "host".data
        let ok :=
          if truthyS origin then
            match urlHost (origin.getD []) with
            | some h => host == some h
            | none => false
          else if truthyS referer then
            match urlHost (referer.getD []) with
            | some h => host == some h
            | none => false
          else false
        !ok
      else false
    if originFail then .status 403 "CSRF: origin/referrer mismatch.".data
    else
      let token := jsOrS (reqGet req opts.headerName)
        (jsOrS (List.lookup opts.fieldName req.body)
          (List.lookup opts.fieldName req.query))
      if !truthyS token then .status 403 "CSRF token missing.".data
      else
        let tok := token.getD []
        if opts.stateless then
          let r := verifySignedToken tok (opts.statelessKey.getD [])
          if !r.ok then .status 403 "CSRF token invalid.".data
          else
            let expired :=
              match r.payload with
              | none => false
              | some p =>
                  jsTruthy p &&
                    (match jsGet p "exp".data with
                     | none => false
                     | some e =>
                         jsTruthy e &&
                           (match e with
                            | .num m => decide (now > m)
                            | _ => false))
            if expired then .status 403 "CSRF token expired.".data else .next
        else
          let key := jsOrS req.session (jsOrS (reqGet req "x-session-id".data)
            (List.lookup opts.cookieSidName req.cookies))
          if !truthyS key then .status 403 "CSRF session missing.".data
          else
            let storedB64 := storeGet (key.getD [])
            if !truthyS storedB64 then .status 403 "CSRF secret missing.".data
            else
              let secret := decode (storedB64.getD [])
              let provided := if opts.mask then unmaskToken tok
                else .ok (decode tok)
              match provided with
              | .error _ => .status 403 "CSRF token malformed.".data
              | .ok p =>
                  if p.length ≠ secret.length then
                    .status 403 "CSRF token length mismatch.".data
                  else
                    match safeEqual (.buf p) (.buf secret) with
                    | .ok true => .next
                    | .ok false => .status 403 "CSRF token mismatch.".data
                    | .error _ => .status 500 "CSRF verification error.".data

/-! ### Configuration merging and validation -/

/-- A configured store object, reduced to what the construction-time
check `!opts.store || !opts.store.get` observes: whether a truthy
`get` member exists. -/
structure StoreObj where
  hasGet : Bool

/-- User options: `none` means the property is absent from `userOpts`;
for `store` and `statelessKey` a present-but-null/undefined value is
distinguished (`some none`), since `Object.assign` copies it over the
default. -/
structure UserOpts where
  cookieName : Option JStr
  cookieSidName : Option JStr
  headerName : Option JStr
  fieldName : Option JStr
  store : Option (Option StoreObj)
  ttl : Option Nat
  secretLen : Option Nat
  mask : Option Bool
  originCheck : Option Bool
  allowedMethods : Option (List JStr)
  stateless : Option Bool
  statelessKey : Option (Option JStr)
  statelessTTL : Option Int

/-- The merged options: `Object.assign({}, DEFAULTS, userOpts)`
(the default store is the module-level in-memory store, which has a
`get` method). -/
structure MergedOpts where
  cookieName : JStr
  cookieSidName : JStr
  headerName : JStr
  fieldName : JStr
  store : Option StoreObj
  ttl : Nat
  secretLen : Nat
  mask : Bool
  originCheck : Bool
  allowedMethods : List JStr
  stateless : Bool
  statelessKey : Option JStr
  statelessTTL : Int

/-- Merge user options over `DEFAULTS`. -/
def mergeOpts (u : UserOpts) : MergedOpts :=
  ⟨u.cookieName.getD "CSRF_PLUS_TOKEN".data,
   u.cookieSidName.getD "CSRF_PLUS_SID".data,
   u.headerName.getD "x-csrf-plus".data,
   u.fieldName.getD "_csrf".data,
   (match u.store with
    | none => some ⟨true⟩
    | some v => v),
   u.ttl.getD 3600,
   u.secretLen.getD 32,
   u.mask.getD true,
   u.originCheck.getD true,
   u.allowedMethods.getD ["GET".data, "HEAD".data, "OPTIONS".data],
   u.stateless.getD false,
   (match u.statelessKey with
    | none => none
    | some v => v),
   u.statelessTTL.getD 3600000⟩

/-- Truthiness of `opts.store && opts.store.get`. -/
def storeUsable : Option StoreObj → Bool
  | none => false
  | some st => st.hasGet

/-- Truthiness of `opts.statelessKey` (`null` and `''` are falsy). -/
def keyTruthy : Option JStr → Bool
  | none => false
  | some s => !s.isEmpty

/-- `createMiddleware(userOpts)`: merge, then validate synchronously;
the two `throw new Error(...)` sites become `.error`.  The returned
merged options stand for the `{ middleware, verify, adapters }`
bundle, whose closures capture exactly them. -/
def createMiddleware (u : UserOpts) : Except JStr MergedOpts :=
  let opts := mergeOpts u
  if !opts.stateless && !storeUsable opts.store then
    .error "store required when stateless=false.".data
  else if opts.stateless && !keyTruthy opts.statelessKey then
    .error "statelessKey required when stateless=true".data
  else .ok opts

/-! ## In-memory store — `src/storage/memory.js`

The store is a state machine: the `Map` contents plus the multiset of
pending `setTimeout` cleanups scheduled by `set`.  Time is in epoch
milliseconds (`Nat`).  A trace is a list of timestamped events; a
timer event models one scheduled cleanup callback firing
(`map.delete(k)`, unconditionally). -/

/-- One stored entry: `{ val, exp }` with `exp` null for no expiry. -/
structure MemEntry where
  val : JStr
  exp : Option Nat

/-- The store state: the map and the pending cleanup timers
`(key, fireAt)`. -/
structure MemState where
  map : List (JStr × MemEntry)
  timers : List (JStr × Nat)

/-- `map.get`. -/
def mapGet (m : List (JStr × MemEntry)) (k : JStr) : Option MemEntry :=
  List.lookup k m

/-- `map.delete`. -/
def mapDel (m : List (JStr × MemEntry)) (k : JStr) : List (JStr × MemEntry) :=
  m.filter (fun p => p.1 ≠ k)

/-- `map.set` (replace any existing binding). -/
def mapSet (m : List (JStr × MemEntry)) (k : JStr) (v : MemEntry) :
    List (JStr × MemEntry) :=
  (k, v) :: mapDel m k

/-- `set(k, v, ttlSec)` at time `t`: store
`{val, exp: ttlSec ? t + ttlSec*1000 : null}` and, when `ttlSec` is
truthy, schedule `map.delete(k)` at `t + ttlSec*1000 + 100`. -/
def memSet (s : MemState) (t : Nat) (k v : JStr) (ttlSec : Nat) : MemState :=
  let exp := if ttlSec ≠ 0 then some (t + ttlSec * 1000) else none
  ⟨mapSet s.map k ⟨v, exp⟩,
   if ttlSec ≠ 0 then (k, t + ttlSec * 1000 + 100) :: s.timers else s.timers⟩

/-- `get(k)` at time `t`: lazily expire (`e.exp && Date.now() > e.exp`
deletes and returns null), else return the value. -/
def memGet (s : MemState) (t : Nat) (k : JStr) : MemState × Option JStr :=
  match mapGet s.map k with
  | none => (s, none)
  | some e =>
      match e.exp with
      | some ex =>
          if ex ≠ 0 ∧ t > ex then (⟨mapDel s.map k, s.timers⟩, none)
          else (s, some e.val)
      | none => (s, some e.val)

/-- `del(k)`. -/
def memDel (s : MemState) (k : JStr) : MemState :=
  ⟨mapDel s.map k, s.timers⟩

/-- A scheduled cleanup firing: `map.delete(k)`, unconditionally, and
the timer is spent. -/
def memTimer (s : MemState) (k : JStr) (fireAt : Nat) : MemState :=
  ⟨mapDel s.map k, s.timers.erase (k, fireAt)⟩

/-- A store event. -/
inductive MemEvent where
  | eset (k v : JStr) (ttlSec : Nat) : MemEvent
  | eget (k : JStr) : MemEvent
  | edel (k : JStr) : MemEvent
  | etimer (k : JStr) (fireAt : Nat) : MemEvent

/-- One step of the store machine at a timestamp. -/
def memStep (s : MemState) (te : Nat × MemEvent) : MemState :=
  match te.2 with
  | .eset k v ttl => memSet s te.1 k v ttl
  | .eget k => (memGet s te.1 k).1
  | .edel k => memDel s k
  | .etimer k f => memTimer s k f

/-- Run a timed event list. -/
def memRun (s : MemState) (evs : List (Nat × MemEvent)) : MemState :=
  evs.foldl memStep s

/-- Trace validity: timestamps nondecreasing, and a timer event fires
only at its scheduled time while actually pending. -/
def validFrom (s : MemState) (prev : Nat) : List (Nat × MemEvent) → Bool
  | [] => true
  | (t, e) :: rest =>
      decide (prev ≤ t) &&
        (match e with
         | .etimer k f => decide (t = f) && decide ((k, f) ∈ s.timers)
         | _ => true) &&
        validFrom (memStep s (t, e)) t rest

/-! ### Concrete fixtures used when settling the claims -/

/-- A stateless-mode configuration with origin checking off (as the
repository's stateless middleware test configures it) and the given
signing key; other fields are the defaults. -/
def statelessOpts (key : JStr) : Options :=
  ⟨"CSRF_PLUS_TOKEN".data, "CSRF_PLUS_SID".data, "x-csrf-plus".data,
   "_csrf".data, 3600, 32, true, false,
   ["GET".data, "HEAD".data, "OPTIONS".data], true, some key, 3600000⟩

/-- The all-default stateful configuration (origin checking on). -/
def defaultOpts : Options :=
  ⟨"CSRF_PLUS_TOKEN".data, "CSRF_PLUS_SID".data, "x-csrf-plus".data,
   "_csrf".data, 3600, 32, true, true,
   ["GET".data, "HEAD".data, "OPTIONS".data], false, none, 3600000⟩

/-- A POST request carrying the token in the `x-csrf-plus` header and
nothing else. -/
def headerTokenReq (tok : JStr) : Request :=
  ⟨"POST".data, [("x-csrf-plus".data, tok)], [], [], [], none⟩

/-- An empty store snapshot. -/
def emptyStore : JStr → Option JStr := fun _ => none

/-- The user options with every property absent (`createCsrfPlus({})`). -/
def emptyUserOpts : UserOpts :=
  ⟨none, none, none, none, none, none, none, none, none, none, none, none,
   none⟩

/-- Whether a store event leaves the entry of `k` alone: any event on
another key, and reads of `k` itself, but not `set`/`del`/timer cleanup
of `k`. -/
def sparesKey (k : JStr) : MemEvent → Bool
  | .eset k' _ _ => k' != k
  | .edel k' => k' != k
  | .etimer k' _ => k' != k
  | .eget _ => true

/-- Whether a store event is a `set` of key `k`. -/
def isSetOf (k : JStr) : MemEvent → Bool
  | .eset k' _ _ => k' == k
  | _ => false

/-- The stale-cleanup interleaving: `set(k,a,1)` at 0 schedules a
cleanup at 1100; `set(k,b,3600)` at 500; the first set's cleanup fires
at its scheduled time 1100 and deletes the fresh entry. -/
def c3Trace : List (Nat × MemEvent) :=
  [(0, .eset "k".data "a".data 1), (500, .eset "k".data "b".data 3600),
   (1100, .etimer "k".data 1100)]

/-! ### Round-trip of the text codec -/

theorem sextets_lt (b : Bytes) (hb : ∀ x ∈ b, x < 256) :
    ∀ s ∈ sextets b, s < 64 := by
  induction b using sextets.induct with
  | case1 => simp [sextets]
  | case2 b0 =>
      have h0 := hb b0 (by simp)
      simp only [sextets, List.mem_cons, List.not_mem_nil, or_false]
      rintro s (rfl | rfl) <;> omega
  | case3 b0 b1 =>
      have h0 := hb b0 (by simp)
      have h1 := hb b1 (by simp)
      simp only [sextets, List.mem_cons, List.not_mem_nil, or_false]
      rintro s (rfl | rfl | rfl) <;> omega
  | case4 b0 b1 b2 rest ih =>
      have h0 := hb b0 (by simp)
      have h1 := hb b1 (by simp)
      have h2 := hb b2 (by simp)
      simp only [sextets, List.mem_cons]
      rintro s (rfl | rfl | rfl | rfl | hs)
      · omega
      · omega
      · omega
      · omega
      · exact ih (fun x hx => hb x (by simp [hx])) s hs

theorem decodeQuads_sextets (b : Bytes) (hb : ∀ x ∈ b, x < 256) :
    decodeQuads (sextets b) = b := by
  induction b using sextets.induct with
  | case1 => rfl
  | case2 b0 =>
      have h0 := hb b0 (by simp)
      simp only [sextets, decodeQuads]
      congr 1
      omega
  | case3 b0 b1 =>
      have h0 := hb b0 (by simp)
      have h1 := hb b1 (by simp)
      simp only [sextets, decodeQuads]
      have e0 : b0 / 4 * 4 + (b0 % 4 * 16 + b1 / 16) / 16 = b0 := by omega
      have e1 : (b0 % 4 * 16 + b1 / 16) % 16 * 16 + b1 % 16 * 4 / 4 = b1 := by omega
      rw [e0, e1]
  | case4 b0 b1 b2 rest ih =>
      have h0 := hb b0 (by simp)
      have h1 := hb b1 (by simp)
      have h2 := hb b2 (by simp)
      simp only [sextets, decodeQuads]
      have e0 : b0 / 4 * 4 + (b0 % 4 * 16 + b1 / 16) / 16 = b0 := by omega
      have e1 : (b0 % 4 * 16 + b1 / 16) % 16 * 16 + (b1 % 16 * 4 + b2 / 64) / 4 = b1 := by
        omega
      have e2 : (b1 % 16 * 4 + b2 / 64) % 4 * 64 + b2 % 64 = b2 := by omega
      rw [e0, e1, e2, ih (fun x hx => hb x (by simp [hx]))]

theorem substRound_of_lt : ∀ n < 64, substDec (substEnc (sextetChar n)) = sextetChar n := by
  decide

theorem substEnc_ne_eq_of_lt : ∀ n < 64, substEnc (sextetChar n) ≠ '=' := by
  decide

theorem sextetVal_sextetChar_of_lt : ∀ n < 64, sextetVal (sextetChar n) = some n := by
  decide

theorem dropWhileEq_replicate (k : Nat) (z : JStr) :
    List.dropWhile (· = '=') (List.replicate k '=' ++ z) =
      List.dropWhile (· = '=') z := by
  induction k with
  | zero => rfl
  | succ k ih => simp [List.replicate_succ, List.dropWhile, ih]

theorem dropWhileEq_of_ne (z : JStr) (hz : ∀ c ∈ z, c ≠ '=') :
    List.dropWhile (· = '=') z = z := by
  cases z with
  | nil => rfl
  | cons c rest =>
      have hc : c ≠ '=' := hz c (by simp)
      simp [List.dropWhile, hc]

theorem stripTrailingEq_append (y : JStr) (k : Nat) (hy : ∀ c ∈ y, c ≠ '=') :
    stripTrailingEq (y ++ List.replicate k '=') = y := by
  unfold stripTrailingEq
  rw [List.reverse_append, List.reverse_replicate, dropWhileEq_replicate,
    dropWhileEq_of_ne _ (fun c hc => hy c (List.mem_reverse.mp hc)),
    List.reverse_reverse]

theorem filterMap_sextetChar (s : List Nat) (hs : ∀ x ∈ s, x < 64) :
    (s.map sextetChar).filterMap sextetVal = s := by
  induction s with
  | nil => rfl
  | cons x rest ih =>
      have hx := hs x (by simp)
      simp only [List.map_cons, List.filterMap_cons,
        sextetVal_sextetChar_of_lt x hx]
      rw [ih (fun y hy => hs y (by simp [hy]))]

theorem filterMap_sextetVal_replicate (k : Nat) :
    (List.replicate k '=').filterMap sextetVal = [] := by
  induction k with
  | zero => rfl
  | succ k ih =>
      rw [List.replicate_succ, List.filterMap_cons]
      have : sextetVal '=' = none := by decide
      rw [this, ih]

/-- The body of `encode`: the padding-free sextet characters, substituted. -/
theorem encode_eq_subst (b : Bytes) (hb : ∀ x ∈ b, x < 256) :
    encode b = ((sextets b).map sextetChar).map substEnc := by
  unfold encode toBase64
  rw [List.map_append, List.map_replicate]
  have he : substEnc '=' = '=' := by decide
  rw [he, stripTrailingEq_append]
  intro c hc
  simp only [List.map_map, List.mem_map] at hc
  obtain ⟨n, hn, rfl⟩ := hc
  exact substEnc_ne_eq_of_lt n (sextets_lt b hb n hn)

/-- C7 core: `decode (encode b) = b` for every byte buffer. -/
theorem decode_encode (b : Bytes) (hb : ∀ x ∈ b, x < 256) :
    decode (encode b) = b := by
  rw [encode_eq_subst b hb]
  unfold decode padTo4 bufferFromBase64
  rw [List.map_map, List.map_map]
  have hmap : (sextets b).map ((substDec ∘ substEnc) ∘ sextetChar) =
      (sextets b).map sextetChar := by
    apply List.map_congr_left
    intro n hn
    exact substRound_of_lt n (sextets_lt b hb n hn)
  rw [hmap, List.filterMap_append, filterMap_sextetVal_replicate,
    List.append_nil, filterMap_sextetChar _ (sextets_lt b hb)]
  exact decodeQuads_sextets b hb

/-! ## Support lemmas: output shapes of the crypto and codec layers -/

theorem roundFn_length (st : List Nat) (kw : Nat × Nat) :
    (roundFn st kw).length = st.length := by
  unfold roundFn
  split <;> rfl

theorem foldl_roundFn_length (l : List (Nat × Nat)) (st : List Nat) :
    (l.foldl roundFn st).length = st.length := by
  induction l generalizing st with
  | nil => rfl
  | cons kw rest ih => rw [List.foldl_cons, ih, roundFn_length]

theorem compressBlock_length (h block : List Nat) (hh : h.length = 8) :
    (compressBlock h block).length = 8 := by
  unfold compressBlock
  rw [List.length_map, List.length_zip, foldl_roundFn_length, hh]
  exact Nat.min_self 8

theorem sha256Words_length (fuel : Nat) (ws h : List Nat) (hh : h.length = 8) :
    (sha256Words h ws fuel).length = 8 := by
  induction fuel generalizing ws h with
  | zero => exact hh
  | succ fuel ih =>
      unfold sha256Words
      match ws with
      | [] => exact hh
      | w :: rest => exact ih _ _ (compressBlock_length _ _ hh)

theorem wordsToBytes_length (ws : List Nat) :
    (wordsToBytes ws).length = 4 * ws.length := by
  induction ws with
  | nil => rfl
  | cons w rest ih => simp [wordsToBytes, ih]; omega

theorem wordsToBytes_lt (ws : List Nat) : ∀ b ∈ wordsToBytes ws, b < 256 := by
  induction ws with
  | nil => simp [wordsToBytes]
  | cons w rest ih =>
      simp only [wordsToBytes, List.mem_cons]
      rintro b (rfl | rfl | rfl | rfl | hb)
      · omega
      · omega
      · omega
      · omega
      · exact ih b hb

theorem sha256_length (msg : Bytes) : (sha256 msg).length = 32 := by
  unfold sha256
  rw [wordsToBytes_length, sha256Words_length]
  rfl

theorem sha256_lt (msg : Bytes) : ∀ b ∈ sha256 msg, b < 256 := by
  unfold sha256
  exact wordsToBytes_lt _

theorem hmacSha256_length (key msg : Bytes) : (hmacSha256 key msg).length = 32 := by
  unfold hmacSha256
  exact sha256_length _

theorem hmacSha256_lt (key msg : Bytes) : ∀ b ∈ hmacSha256 key msg, b < 256 := by
  unfold hmacSha256
  exact sha256_lt _

/-! ### UTF-8 lemmas -/

theorem char_toNat_lt (c : Char) : c.toNat < 1114112 := by
  rcases c.valid with h | h
  · exact Nat.lt_trans h (by norm_num)
  · exact h.2

theorem utf8Char_lt (c : Char) : ∀ b ∈ utf8Char c, b < 256 := by
  have hc := char_toNat_lt c
  unfold utf8Char
  split
  · simp only [List.mem_cons, List.not_mem_nil, or_false]
    rintro b rfl
    omega
  · split
    · simp only [List.mem_cons, List.not_mem_nil, or_false]
      rintro b (rfl | rfl) <;> omega
    · split
      · simp only [List.mem_cons, List.not_mem_nil, or_false]
        rintro b (rfl | rfl | rfl) <;> omega
      · simp only [List.mem_cons, List.not_mem_nil, or_false]
        rintro b (rfl | rfl | rfl | rfl) <;> omega

theorem utf8_lt (s : JStr) : ∀ b ∈ utf8 s, b < 256 := by
  induction s with
  | nil => simp [utf8]
  | cons c rest ih =>
      simp only [utf8, List.mem_append]
      rintro b (hb | hb)
      · exact utf8Char_lt c b hb
      · exact ih b hb

theorem utf8_ascii (s : JStr) (h : ∀ c ∈ s, c.toNat < 128) :
    utf8 s = s.map Char.toNat := by
  induction s with
  | nil => rfl
  | cons c rest ih =>
      have hc := h c (by simp)
      simp only [utf8, List.map_cons]
      rw [ih (fun x hx => h x (by simp [hx]))]
      unfold utf8Char
      simp [hc]

theorem utf8Char_ne_nil (c : Char) : utf8Char c ≠ [] := by
  unfold utf8Char
  split
  · simp
  · split
    · simp
    · split <;> simp

theorem utf8_ne_nil (s : JStr) (h : s ≠ []) : utf8 s ≠ [] := by
  match s with
  | c :: rest =>
      simp only [utf8, ne_eq, List.append_eq_nil, not_and]
      intro hc
      exact absurd hc (utf8Char_ne_nil c)

theorem toCharRepl_toNat (c : Char) (hc : c.toNat < 55296) :
    toCharRepl c.toNat = c := by
  have hvalid : (c.toNat).isValidChar := Or.inl (by omega)
  unfold toCharRepl
  rw [if_pos hvalid, Char.ofNat_toNat]

theorem utf8DecodeFuel_ascii (s : JStr) (fuel : Nat) (hf : s.length ≤ fuel)
    (h : ∀ c ∈ s, c.toNat < 128) :
    utf8DecodeFuel fuel (s.map Char.toNat) = s := by
  induction s generalizing fuel with
  | nil =>
      match fuel with
      | 0 => rfl
      | fuel + 1 => rfl
  | cons c rest ih =>
      match fuel with
      | fuel + 1 =>
          have hc := h c (by simp)
          have hrest : ∀ x ∈ rest, x.toNat < 128 := fun x hx => h x (by simp [hx])
          have hlen : rest.length ≤ fuel := by
            simp only [List.length_cons] at hf
            omega
          simp only [List.map_cons, utf8DecodeFuel, if_pos hc,
            toCharRepl_toNat c (by omega), ih fuel hlen hrest]

theorem utf8Decode_utf8_ascii (s : JStr) (h : ∀ c ∈ s, c.toNat < 128) :
    utf8Decode (utf8 s) = s := by
  unfold utf8Decode
  rw [utf8_ascii s h]
  exact utf8DecodeFuel_ascii s _ (by simp) h

/-! ### `lastIndexOf` on a buffer whose tail is separator-free -/

theorem indexOf?_append_cons (y z : Bytes) (x : Nat) (hy : x ∉ y) :
    List.indexOf? x (y ++ x :: z) = some y.length := by
  induction y with
  | nil => simp [List.indexOf?]
  | cons a rest ih =>
      have ha : a ≠ x := by
        intro hax
        exact hy (by simp [hax])
      have step : List.indexOf? x ((a :: rest) ++ x :: z) =
          (List.indexOf? x (rest ++ x :: z)).map (· + 1) := by
        simp [List.indexOf?, List.findIdx?, ha]
      rw [step, ih (fun hx => hy (by simp [hx]))]
      rfl

theorem jsLastIndexOf_append (a b : Bytes) (x : Nat) (hb : x ∉ b) :
    jsLastIndexOf (a ++ x :: b) x = Int.ofNat a.length := by
  unfold jsLastIndexOf
  have hrev : (a ++ x :: b).reverse = b.reverse ++ x :: a.reverse := by
    rw [List.reverse_append, List.reverse_cons, List.append_assoc,
      List.singleton_append]
  rw [hrev, indexOf?_append_cons _ _ _ (by simpa using hb)]
  simp only [List.length_append, List.length_cons, List.length_reverse]
  congr 1
  omega

/-! ### Shape lemmas for tokens -/

theorem sextets_ne_nil (b : Bytes) (h : b ≠ []) : sextets b ≠ [] := by
  match b with
  | [b0] => simp [sextets]
  | [b0, b1] => simp [sextets]
  | b0 :: b1 :: b2 :: rest => simp [sextets]

theorem encode_ne_nil (b : Bytes) (hb : ∀ x ∈ b, x < 256) (h : b ≠ []) :
    encode b ≠ [] := by
  rw [encode_eq_subst b hb]
  simp [List.map_eq_nil_iff, sextets_ne_nil b h]

theorem safeEqual_bufs (a b : Bytes) (h : a.length = b.length) :
    safeEqual (.buf a) (.buf b) = .ok (a == b) := by
  simp [safeEqual, toBuffer, timingSafeEqual, h]

/-- Sign/verify round-trip under the two side conditions the boundary
scan needs: an ASCII, nonempty payload and a MAC free of the separator
byte `0x2E`. -/
theorem verify_sign_roundtrip (P key : JStr) (hP : ∀ c ∈ P, c.toNat < 128)
    (hne : P ≠ [])
    (hmac : 0x2E ∉ hmacSha256 (utf8 key) (utf8 P)) :
    verifySignedToken (signPayload P key) key = ⟨true, jsonParse P⟩ := by
  have hml := hmacSha256_length (utf8 key) (utf8 P)
  have hmb := hmacSha256_lt (utf8 key) (utf8 P)
  have hassoc : utf8 P ++ [0x2E] ++ hmacSha256 (utf8 key) (utf8 P) =
      utf8 P ++ 0x2E :: hmacSha256 (utf8 key) (utf8 P) := by
    simp
  have hbytes : ∀ x ∈ utf8 P ++ 0x2E :: hmacSha256 (utf8 key) (utf8 P),
      x < 256 := by
    intro x hx
    rcases List.mem_append.mp hx with hx | hx
    · exact utf8_lt P x hx
    · rcases List.mem_cons.mp hx with rfl | hx
      · omega
      · exact hmb x hx
  have hlen0 : 0 < (utf8 P).length :=
    List.length_pos.mpr (utf8_ne_nil P hne)
  have hdot : jsLastIndexOf (utf8 P ++ 0x2E :: hmacSha256 (utf8 key) (utf8 P))
      0x2E = Int.ofNat (utf8 P).length :=
    jsLastIndexOf_append _ _ _ hmac
  have hgt : (0 : Int) < Int.ofNat (utf8 P).length := Int.ofNat_lt.mpr hlen0
  have hcast : (Int.ofNat (utf8 P).length).toNat = (utf8 P).length := rfl
  unfold verifySignedToken signPayload
  dsimp only
  rw [hassoc, decode_encode _ hbytes, hdot]
  rw [if_neg (not_le.mpr hgt)]
  have htake : (utf8 P ++ 0x2E :: hmacSha256 (utf8 key) (utf8 P)).take
      (Int.ofNat (utf8 P).length).toNat = utf8 P := by
    rw [hcast]
    exact List.take_left _ _
  have hdrop : (utf8 P ++ 0x2E :: hmacSha256 (utf8 key) (utf8 P)).drop
      ((Int.ofNat (utf8 P).length).toNat + 1) =
      hmacSha256 (utf8 key) (utf8 P) := by
    rw [hcast]
    have : utf8 P ++ 0x2E :: hmacSha256 (utf8 key) (utf8 P) =
        (utf8 P ++ [0x2E]) ++ hmacSha256 (utf8 key) (utf8 P) := by simp
    rw [this]
    exact List.drop_left' (by simp)
  rw [htake, hdrop, utf8Decode_utf8_ascii P hP]
  rw [if_neg (by simp)]
  rw [safeEqual_bufs _ _ rfl]
  simp

/-! ## C7 — text-codec round-trip -/

/-- C7 (confirmed): for every byte buffer `b`,
`decode (encode b) = b`: `encode` produces URL-safe base64 without
padding and `decode` restores padding and reverses the substitution. -/
theorem c7_text_codec_roundtrip (b : Bytes) (hb : ∀ x ∈ b, x < 256) :
    decode (encode b) = b :=
  decode_encode b hb

/-- Witness for C7 at a concrete three-byte buffer. -/
theorem c7_text_codec_roundtrip_witness :
    decode (encode [0, 255, 46]) = [0, 255, 46] :=
  c7_text_codec_roundtrip [0, 255, 46] (by decide)

/-! ## C10 — `safeEqual` totality -/

/-- C10 (confirmed): `safeEqual` never raises — for all inputs it
returns `.ok` of exactly the content-equality of the converted buffers
(so `true` iff equal length and identical bytes); when the lengths
differ the early `return false` fires before `crypto.timingSafeEqual`
is invoked, whose unequal-length error branch is therefore unreachable
from `safeEqual`. -/
theorem c10_safeEqual_total (x y : BufOrStr) :
    safeEqual x y = .ok (toBuffer x == toBuffer y) ∧
      (∀ e, safeEqual x y ≠ .error e) := by
  have hmain : safeEqual x y = .ok (toBuffer x == toBuffer y) := by
    unfold safeEqual timingSafeEqual
    dsimp only
    by_cases h : (toBuffer x).length = (toBuffer y).length
    · simp [h]
    · have hbeq : (toBuffer x == toBuffer y) = false :=
        beq_eq_false_iff_ne.mpr (fun hc => h (by rw [hc]))
      simp [h, hbeq]
  refine ⟨hmain, fun e hcontr => ?_⟩
  rw [hmain] at hcontr
  exact Except.noConfusion hcontr

/-! ## C6 — mask round-trip (mask codec modelled from the spec) -/

theorem zipWith_xor_cancel (pad secret : Bytes)
    (h : pad.length = secret.length) :
    List.zipWith Nat.xor pad (List.zipWith Nat.xor pad secret) = secret := by
  induction pad generalizing secret with
  | nil =>
      match secret with
      | [] => rfl
  | cons p rest ih =>
      match secret with
      | s :: srest =>
          simp only [List.zipWith_cons_cons, List.cons.injEq]
          exact ⟨Nat.xor_cancel_left p s, ih srest (by simpa using h)⟩

theorem zipWith_xor_lt (pad secret : Bytes) (hp : ∀ x ∈ pad, x < 256)
    (hs : ∀ x ∈ secret, x < 256) :
    ∀ x ∈ List.zipWith Nat.xor pad secret, x < 256 := by
  induction pad generalizing secret with
  | nil => simp
  | cons p rest ih =>
      match secret with
      | [] => simp
      | s :: srest =>
          simp only [List.zipWith_cons_cons, List.mem_cons]
          rintro x (rfl | hx)
          · have h1 : p < 2 ^ 8 := by simpa using hp p (by simp)
            have h2 : s < 2 ^ 8 := by simpa using hs s (by simp)
            simpa using Nat.xor_lt_two_pow h1 h2
          · exact ih srest (fun y hy => hp y (by simp [hy]))
              (fun y hy => hs y (by simp [hy])) x hx

/-- C6 (confirmed, mask codec modelled from the spec since
`src/token/mask.js` is absent from the sources): for every nonempty
secret and every equal-length pad, `unmaskToken (makeMaskedToken S) = S`. -/
theorem c6_mask_roundtrip (secret pad : Bytes)
    (hlen : pad.length = secret.length) (hne : secret ≠ [])
    (hs : ∀ x ∈ secret, x < 256) (hp : ∀ x ∈ pad, x < 256) :
    unmaskToken (makeMaskedToken secret pad) = .ok secret := by
  have hmask := zipWith_xor_lt pad secret hp hs
  have hbytes : ∀ x ∈ pad ++ List.zipWith Nat.xor pad secret, x < 256 := by
    intro x hx
    rcases List.mem_append.mp hx with hx | hx
    · exact hp x hx
    · exact hmask x hx
  have hzlen : (List.zipWith Nat.xor pad secret).length = pad.length := by
    rw [List.length_zipWith, hlen, Nat.min_self]
  unfold unmaskToken makeMaskedToken
  rw [decode_encode _ hbytes]
  have hfull : (pad ++ List.zipWith Nat.xor pad secret).length = 2 * pad.length := by
    rw [List.length_append, hzlen]
    omega
  have hpos : 0 < pad.length := by
    rw [hlen]
    exact List.length_pos.mpr hne
  rw [if_neg (by rw [hfull]; omega)]
  have hhalf : (pad ++ List.zipWith Nat.xor pad secret).length / 2 = pad.length := by
    rw [hfull]
    omega
  rw [hhalf, List.take_left, List.drop_left]
  rw [zipWith_xor_cancel pad secret hlen]

/-- Witness for C6 at a concrete secret and pad. -/
theorem c6_mask_roundtrip_witness :
    unmaskToken (makeMaskedToken [1, 2, 3] [40, 50, 60]) = .ok [1, 2, 3] :=
  c6_mask_roundtrip [1, 2, 3] [40, 50, 60] (by decide) (by decide)
    (by decide) (by decide)

/-! ## C1 — signature round-trip vs. the `lastIndexOf` boundary scan -/

/-- C1 (code_bug): the round-trip fails at the concrete payload
`"abc"` and key `"k"`, because `HMAC-SHA256("k", "abc")` contains the
separator byte `0x2E` (at its second position), so
`raw.lastIndexOf(0x2E)` lands inside the MAC, the sliced MAC is 30
bytes instead of 32, and verification reports
`{ok:false, payload:null}` where the spec's round-trip property
requires `{ok:true, payload:parse("abc")}`. -/
theorem c1_roundtrip_broken_by_dot_in_mac :
    0x2E ∈ hmacSha256 (utf8 "k".data) (utf8 "abc".data) ∧
      (verifySignedToken (signPayload "abc".data "k".data) "k".data).ok =
        false ∧
      (verifySignedToken (signPayload "abc".data "k".data)
        "k".data).payload.isNone = true := by
  refine ⟨by decide, by decide, by decide⟩

/-! ## C2 — stateless verify on `{ok:true, payload:null}` -/

/-- C2 (code_bug): a token whose signature is valid but whose payload
is not JSON (`"hi"` under key `"k"`; its MAC happens to contain no
`0x2E` byte) makes `verifySignedToken` return `{ok:true, payload:null}`,
and the stateless branch of `verify` then *accepts* it — the
`payload && payload.exp && ...` guard is skipped for a null payload and
`next()` is reached — although the spec requires `payload:null` to be
treated as unusable. -/
theorem c2_null_payload_token_accepted :
    (verifySignedToken (signPayload "hi".data "k".data) "k".data).ok = true ∧
      (verifySignedToken (signPayload "hi".data "k".data)
        "k".data).payload.isNone = true ∧
      verify (statelessOpts "k".data) emptyStore
        (headerTokenReq (signPayload "hi".data "k".data)) 1700000000000 =
        .next := by
  refine ⟨by decide, by decide, by decide⟩

/-! ## C4 — `verifySignedToken` error-path enumeration -/

/-- C4 (confirmed): `verifySignedToken` is total (never raises — in
particular a `timingSafeEqual` length-mismatch throw is forestalled by
the preceding length check, and Node's base64 text decode is itself
total), and for every token and key its result is exactly: missing or
leading separator (`lastIndexOf ≤ 0`) → `{ok:false, payload:null}`;
MAC-slice length mismatch → `{ok:false, payload:null}`; MAC value
mismatch → `{ok:false, payload:null}`; matching MAC →
`{ok:true, payload: JSON.parse payload}` (which is `payload:null`
exactly when the payload bytes are not valid JSON). -/
theorem c4_verify_error_enumeration (t key : JStr) :
    (jsLastIndexOf (decode t) 0x2E ≤ 0 →
      verifySignedToken t key = ⟨false, none⟩) ∧
    (0 < jsLastIndexOf (decode t) 0x2E →
      (((decode t).drop ((jsLastIndexOf (decode t) 0x2E).toNat + 1)).length ≠
          (hmacSha256 (utf8 key) (utf8 (utf8Decode
            ((decode t).take (jsLastIndexOf (decode t) 0x2E).toNat)))).length →
        verifySignedToken t key = ⟨false, none⟩) ∧
      ((decode t).drop ((jsLastIndexOf (decode t) 0x2E).toNat + 1) ≠
          hmacSha256 (utf8 key) (utf8 (utf8Decode
            ((decode t).take (jsLastIndexOf (decode t) 0x2E).toNat))) →
        verifySignedToken t key = ⟨false, none⟩) ∧
      ((decode t).drop ((jsLastIndexOf (decode t) 0x2E).toNat + 1) =
          hmacSha256 (utf8 key) (utf8 (utf8Decode
            ((decode t).take (jsLastIndexOf (decode t) 0x2E).toNat))) →
        verifySignedToken t key =
          ⟨true, jsonParse (utf8Decode
            ((decode t).take (jsLastIndexOf (decode t) 0x2E).toNat))⟩)) := by
  refine ⟨fun h => ?_, fun h0 => ⟨fun hlen => ?_, fun hneq => ?_, fun heq => ?_⟩⟩
  · unfold verifySignedToken
    dsimp only
    rw [if_pos h]
  · unfold verifySignedToken
    dsimp only
    rw [if_neg (not_le.mpr h0), if_pos hlen]
  · unfold verifySignedToken
    dsimp only
    rw [if_neg (not_le.mpr h0)]
    by_cases hl : ((decode t).drop ((jsLastIndexOf (decode t) 0x2E).toNat + 1)).length =
        (hmacSha256 (utf8 key) (utf8 (utf8Decode
          ((decode t).take (jsLastIndexOf (decode t) 0x2E).toNat)))).length
    · rw [if_neg (by simp [hl]), safeEqual_bufs _ _ hl,
        beq_eq_false_iff_ne.mpr hneq]
    · rw [if_pos hl]
  · unfold verifySignedToken
    dsimp only
    rw [if_neg (not_le.mpr h0), heq]
    rw [if_neg (by simp), safeEqual_bufs _ _ rfl]
    simp

/-- Witness for C4: the token `"aGk"` decodes to bytes containing no
separator, so the first enumerated case applies. -/
theorem c4_verify_error_enumeration_witness :
    jsLastIndexOf (decode "aGk".data) 0x2E ≤ 0 ∧
      verifySignedToken "aGk".data "k".data = ⟨false, none⟩ :=
  ⟨by decide, (c4_verify_error_enumeration "aGk".data "k".data).1 (by decide)⟩

/-! ## C9 — origin check with neither Origin nor Referer -/

/-- C9 (confirmed): with `originCheck` on, a request whose method is
not in `allowedMethods` and that carries neither an `Origin` nor a
`Referer` header is rejected 403 with the origin/referrer-mismatch
message, whatever token it carries (the origin gate runs before token
extraction) and whatever the store holds. -/
theorem c9_no_origin_no_referer_rejected (opts : Options)
    (storeGet : JStr → Option JStr) (req : Request) (now : Int)
    (hoc : opts.originCheck = true)
    (hm : req.method ∉ opts.allowedMethods)
    (ho : reqGet req "origin".data = none)
    (hr : reqGet req "referer".data = none) :
    verify opts storeGet req now =
      .status 403 "CSRF: origin/referrer mismatch.".data := by
  unfold verify
  rw [if_neg hm]
  dsimp only
  simp [hoc, ho, hr, truthyS]

/-- Witness for C9: a POST with a token in the header but no
Origin/Referer, under the all-default configuration. -/
theorem c9_no_origin_no_referer_rejected_witness :
    verify defaultOpts emptyStore (headerTokenReq "sometoken".data) 0 =
      .status 403 "CSRF: origin/referrer mismatch.".data :=
  c9_no_origin_no_referer_rejected defaultOpts emptyStore
    (headerTokenReq "sometoken".data) 0 (by decide) (by decide) (by decide)
    (by decide)

/-! ## C8 — construction-time configuration validation -/

/-- C8 (confirmed): `createMiddleware` raises (synchronously, at
construction — the validation happens before the bundle is built, so a
configuration error is never deferred to request time) exactly when
the merged configuration is contradictory: stateless off with no
usable store (a falsy `store` or a falsy `store.get`), or stateless on
with a falsy `statelessKey`; otherwise it returns the bundle built
from the merged options. -/
theorem c8_config_failfast (u : UserOpts) :
    ((∃ e, createMiddleware u = .error e) ↔
      ((mergeOpts u).stateless = false ∧
          storeUsable (mergeOpts u).store = false) ∨
        ((mergeOpts u).stateless = true ∧
          keyTruthy (mergeOpts u).statelessKey = false)) ∧
      (¬ (((mergeOpts u).stateless = false ∧
            storeUsable (mergeOpts u).store = false) ∨
          ((mergeOpts u).stateless = true ∧
            keyTruthy (mergeOpts u).statelessKey = false)) →
        createMiddleware u = .ok (mergeOpts u)) := by
  unfold createMiddleware
  dsimp only
  by_cases h1 : (mergeOpts u).stateless
  · by_cases h2 : keyTruthy (mergeOpts u).statelessKey
    · simp [h1, h2]
    · simp [h1, h2]
  · by_cases h2 : storeUsable (mergeOpts u).store
    · simp [h1, h2]
    · simp [h1, h2]

/-- Witness for C8: the empty user options are not contradictory and
construction succeeds. -/
theorem c8_config_failfast_witness :
    createMiddleware emptyUserOpts = .ok (mergeOpts emptyUserOpts) :=
  (c8_config_failfast emptyUserOpts).2 (by decide)

/-! ## C3 — in-memory store TTL invariant -/

/-- C3 (counterexample): in the valid trace `c3Trace` the cleanup
timer scheduled by the *earlier* `set(k,a,1)` fires at 1100 and
removes the entry written by the *most recent* `set(k,b,3600)` well
before that set's expiry (500 + 3600·1000), so the subsequent
`get(k)` at 1200 returns absent where the claim promises `b`. -/
theorem c3_stale_timer_removes_fresh_entry :
    validFrom ⟨[], []⟩ 0 (c3Trace ++ [(1200, .eget "k".data)]) = true ∧
      1200 ≤ 500 + 3600 * 1000 ∧
      (memGet (memRun ⟨[], []⟩ c3Trace) 1200 "k".data).2 = none := by
  refine ⟨by decide, by decide, by decide⟩

theorem lookup_mapDel (m : List (JStr × MemEntry)) (k k' : JStr) :
    mapGet (mapDel m k) k' = if k' = k then none else mapGet m k' := by
  induction m with
  | nil => simp [mapGet, mapDel, List.lookup]
  | cons a rest ih =>
      obtain ⟨ak, ae⟩ := a
      by_cases hak : ak = k
      · subst hak
        have hfilter : mapDel ((ak, ae) :: rest) ak = mapDel rest ak := by
          simp [mapDel, List.filter_cons]
        rw [hfilter, ih]
        by_cases hk : k' = ak
        · simp [hk]
        · simp [mapGet, List.lookup, hk, beq_false_of_ne hk]
      · have hfilter : mapDel ((ak, ae) :: rest) k =
            (ak, ae) :: mapDel rest k := by
          simp [mapDel, List.filter_cons, hak]
        rw [hfilter]
        by_cases hk' : k' = ak
        · subst hk'
          have hkk : k' ≠ k := fun h => hak (h ▸ rfl)
          simp [mapGet, List.lookup, hkk]
        · have h1 : mapGet ((ak, ae) :: mapDel rest k) k' =
              mapGet (mapDel rest k) k' := by
            simp [mapGet, List.lookup, beq_false_of_ne hk']
          have h2 : mapGet ((ak, ae) :: rest) k' = mapGet rest k' := by
            simp [mapGet, List.lookup, beq_false_of_ne hk']
          rw [h1, h2, ih]

theorem mapGet_mapSet_self (m : List (JStr × MemEntry)) (k : JStr)
    (e : MemEntry) : mapGet (mapSet m k e) k = some e := by
  simp [mapSet, mapGet, List.lookup]

theorem mapGet_mapSet_ne (m : List (JStr × MemEntry)) (k k' : JStr)
    (e : MemEntry) (h : k' ≠ k) : mapGet (mapSet m k e) k' = mapGet m k' := by
  have h1 : mapGet ((k, e) :: mapDel m k) k' = mapGet (mapDel m k) k' := by
    simp [mapGet, List.lookup, beq_false_of_ne h]
  simp only [mapSet]
  rw [h1, lookup_mapDel, if_neg h]

theorem memGet_fst_lookup (s : MemState) (t : Nat) (k'' k : JStr) :
    mapGet ((memGet s t k'').1).map k = mapGet s.map k ∨
      mapGet ((memGet s t k'').1).map k = none := by
  unfold memGet
  cases hg : mapGet s.map k'' with
  | none => exact Or.inl rfl
  | some e =>
      dsimp only
      cases he : e.exp with
      | none => exact Or.inl rfl
      | some ex =>
          dsimp only
          by_cases hdel : ex ≠ 0 ∧ t > ex
          · rw [if_pos hdel]
            by_cases hk : k = k''
            · exact Or.inr (by simp [lookup_mapDel, hk])
            · exact Or.inl (by simp [lookup_mapDel, hk])
          · rw [if_neg hdel]
            exact Or.inl rfl

/-- While no event sets, deletes, times out, or lazily expires key `k`,
its entry survives a run unchanged. -/
theorem mapGet_run_eq (evs : List (Nat × MemEvent)) (s : MemState)
    (k v : JStr) (exp : Option Nat)
    (hmap : mapGet s.map k = some ⟨v, exp⟩)
    (hsp : ∀ p ∈ evs, sparesKey k p.2 = true)
    (hexp : ∀ p ∈ evs, ∀ ex, exp = some ex → p.1 ≤ ex ∨ ex = 0) :
    mapGet (memRun s evs).map k = some ⟨v, exp⟩ := by
  induction evs generalizing s with
  | nil => exact hmap
  | cons p rest ih =>
      obtain ⟨t, e⟩ := p
      have hsp0 : sparesKey k e = true := hsp (t, e) (by simp)
      have hstep : mapGet (memStep s (t, e)).map k = some ⟨v, exp⟩ := by
        cases e with
        | eset k' v' ttl' =>
            have hk : k' ≠ k := by simpa [sparesKey, bne_iff_ne] using hsp0
            simp only [memStep, memSet]
            rw [mapGet_mapSet_ne _ _ _ _ (Ne.symm hk)]
            exact hmap
        | eget k'' =>
            simp only [memStep]
            by_cases hk : k'' = k
            · subst hk
              unfold memGet
              rw [hmap]
              dsimp only
              cases hexp2 : exp with
              | none =>
                  rw [hexp2] at hmap
                  show mapGet s.map k'' = some ⟨v, none⟩
                  exact hmap
              | some ex =>
                  rw [hexp2] at hmap
                  dsimp only
                  have hle : t ≤ ex ∨ ex = 0 :=
                    hexp (t, .eget k'') (by simp) ex hexp2
                  rw [if_neg (by omega)]
                  show mapGet s.map k'' = some ⟨v, some ex⟩
                  exact hmap
            · rcases memGet_fst_lookup s t k'' k with hv | hv
              · rw [hv]; exact hmap
              · -- a get of another key can only delete that key
                exfalso
                unfold memGet at hv
                cases hg : mapGet s.map k'' with
                | none =>
                    rw [hg] at hv
                    dsimp only at hv
                    rw [hv] at hmap
                    exact Option.noConfusion hmap
                | some e2 =>
                    rw [hg] at hv
                    dsimp only at hv
                    cases he2 : e2.exp with
                    | none =>
                        rw [he2] at hv
                        dsimp only at hv
                        rw [hv] at hmap
                        exact Option.noConfusion hmap
                    | some ex2 =>
                        rw [he2] at hv
                        dsimp only at hv
                        by_cases hdel : ex2 ≠ 0 ∧ t > ex2
                        · rw [if_pos hdel] at hv
                          simp only [lookup_mapDel] at hv
                          rw [if_neg (fun hkk => hk hkk.symm)] at hv
                          rw [hv] at hmap
                          exact Option.noConfusion hmap
                        · rw [if_neg hdel] at hv
                          dsimp only at hv
                          rw [hv] at hmap
                          exact Option.noConfusion hmap
        | edel k' =>
            have hk : k' ≠ k := by simpa [sparesKey, bne_iff_ne] using hsp0
            simp only [memStep, memDel]
            rw [lookup_mapDel, if_neg (Ne.symm hk)]
            exact hmap
        | etimer k' f =>
            have hk : k' ≠ k := by simpa [sparesKey, bne_iff_ne] using hsp0
            simp only [memStep, memTimer]
            rw [lookup_mapDel, if_neg (Ne.symm hk)]
            exact hmap
      exact ih _ hstep (fun q hq => hsp q (by simp [hq]))
        (fun q hq => hexp q (by simp [hq]))

/-- While no event *sets* key `k`, its entry can only stay as written
or disappear — it is never replaced or resurrected. -/
theorem mapGet_run_sub (evs : List (Nat × MemEvent)) (s : MemState)
    (k v : JStr) (ex : Nat)
    (hmap : mapGet s.map k = none ∨ mapGet s.map k = some ⟨v, some ex⟩)
    (hsp : ∀ p ∈ evs, isSetOf k p.2 = false) :
    mapGet (memRun s evs).map k = none ∨
      mapGet (memRun s evs).map k = some ⟨v, some ex⟩ := by
  induction evs generalizing s with
  | nil => exact hmap
  | cons p rest ih =>
      obtain ⟨t, e⟩ := p
      have hsp0 : isSetOf k e = false := hsp (t, e) (by simp)
      have hstep : mapGet (memStep s (t, e)).map k = none ∨
          mapGet (memStep s (t, e)).map k = some ⟨v, some ex⟩ := by
        cases e with
        | eset k' v' ttl' =>
            have hk : k' ≠ k := by simpa [isSetOf, beq_eq_false_iff_ne] using hsp0
            simp only [memStep, memSet]
            rw [mapGet_mapSet_ne _ _ _ _ (Ne.symm hk)]
            exact hmap
        | eget k'' =>
            simp only [memStep]
            rcases memGet_fst_lookup s t k'' k with hv | hv
            · rw [hv]; exact hmap
            · exact Or.inl hv
        | edel k' =>
            simp only [memStep, memDel]
            rw [lookup_mapDel]
            by_cases hk : k = k'
            · exact Or.inl (if_pos hk)
            · rw [if_neg hk]; exact hmap
        | etimer k' f =>
            simp only [memStep, memTimer]
            rw [lookup_mapDel]
            by_cases hk : k = k'
            · exact Or.inl (if_pos hk)
            · rw [if_neg hk]; exact hmap
      exact ih _ hstep (fun q hq => hsp q (by simp [hq]))

/-- C3 (amended): after the most recent `set(k, v, ttl)` at `t0`,
(a) a `get(k)` at a time no later than the expiry (any time when
`ttl = 0`) returns `v`, provided no interleaved event sets, deletes or
(crucially) fires a *stale cleanup timer from an earlier `set`* on
`k`, no interleaved event occurs after the expiry, and reads of `k`
are free; (b) once the expiry has passed, `get(k)` returns absent no
matter what interleaves, as long as nothing sets `k` again; (c) a
cleanup timer firing never resurrects a key: any `get` that returned
absent still returns absent after the timer runs.  (The unamended
claim fails only in that a stale timer *may remove* the current entry
early — `c3_stale_timer_removes_fresh_entry`.) -/
theorem c3_store_ttl_amended :
    (∀ (s0 : MemState) (k v : JStr) (ttl t0 t : Nat)
        (evs : List (Nat × MemEvent)),
        (∀ p ∈ evs, sparesKey k p.2 = true) →
        (ttl ≠ 0 → t ≤ t0 + ttl * 1000 ∧
          ∀ p ∈ evs, p.1 ≤ t0 + ttl * 1000) →
        (memGet (memRun (memSet s0 t0 k v ttl) evs) t k).2 = some v) ∧
      (∀ (s0 : MemState) (k v : JStr) (ttl t0 t : Nat)
          (evs : List (Nat × MemEvent)),
          ttl ≠ 0 →
          (∀ p ∈ evs, isSetOf k p.2 = false) →
          t0 + ttl * 1000 < t →
          (memGet (memRun (memSet s0 t0 k v ttl) evs) t k).2 = none) ∧
      (∀ (s : MemState) (k k' : JStr) (f t : Nat),
          (memGet s t k').2 = none →
          (memGet (memTimer s k f) t k').2 = none) := by
  refine ⟨?_, ?_, ?_⟩
  · intro s0 k v ttl t0 t evs hsp hexp
    have hinit : mapGet (memSet s0 t0 k v ttl).map k =
        some ⟨v, if ttl ≠ 0 then some (t0 + ttl * 1000) else none⟩ := by
      simp only [memSet]
      exact mapGet_mapSet_self _ _ _
    have hrun := mapGet_run_eq evs _ k v _ hinit hsp ?_
    · unfold memGet
      rw [hrun]
      by_cases httl : ttl ≠ 0
      · rw [if_pos httl]
        have ht := (hexp httl).1
        dsimp only
        rw [if_neg (by omega)]
      · rw [if_neg httl]
    · intro p hp ex hEex
      by_cases httl : ttl ≠ 0
      · rw [if_pos httl] at hEex
        have hex := Option.some.inj hEex
        have hple := (hexp httl).2 p hp
        left
        omega
      · rw [if_neg httl] at hEex
        exact Option.noConfusion hEex
  · intro s0 k v ttl t0 t evs httl hsp ht
    have hinit : mapGet (memSet s0 t0 k v ttl).map k =
        some ⟨v, some (t0 + ttl * 1000)⟩ := by
      simp only [memSet, if_pos httl]
      exact mapGet_mapSet_self _ _ _
    have hrun := mapGet_run_sub evs _ k v (t0 + ttl * 1000)
      (Or.inr hinit) hsp
    unfold memGet
    rcases hrun with hv | hv
    · rw [hv]
    · rw [hv]
      dsimp only
      rw [if_pos ⟨by omega, ht⟩]
  · intro s k k' f t h
    by_cases hk : k' = k
    · subst hk
      unfold memGet memTimer
      simp [lookup_mapDel]
    · unfold memGet at h ⊢
      unfold memTimer
      dsimp only
      rw [lookup_mapDel, if_neg hk]
      cases hg : mapGet s.map k' with
      | none => rfl
      | some e =>
          rw [hg] at h
          dsimp only at h ⊢
          cases he : e.exp with
          | none =>
              rw [he] at h
              dsimp only at h
              simp at h
          | some ex =>
              rw [he] at h
              dsimp only at h ⊢
              by_cases hdel : ex ≠ 0 ∧ t > ex
              · rw [if_pos hdel]
              · rw [if_neg hdel] at h
                simp at h

/-- Witness for C3's amended theorem: a freshly set entry with a
one-second TTL is read back before expiry. -/
theorem c3_store_ttl_amended_witness :
    (memGet (memRun (memSet ⟨[], []⟩ 0 "k".data "v".data 1) []) 500
      "k".data).2 = some "v".data :=
  c3_store_ttl_amended.1 ⟨[], []⟩ "k".data "v".data 1 0 500 []
    (by simp) (fun _ => ⟨by omega, by simp⟩)

/-! ### Decimal printing and parsing round-trip -/

theorem digitChar_facts : ∀ d < 10, (digitChar d).isDigit = true ∧
    (digitChar d).toNat - 48 = d ∧ (digitChar d).toNat < 128 ∧
    isJsonWs (digitChar d) = false ∧ digitChar d ≠ '\x7b' ∧
    digitChar d ≠ '[' ∧ digitChar d ≠ '"' ∧ digitChar d ≠ 't' ∧
    digitChar d ≠ 'f' ∧ digitChar d ≠ 'n' ∧ digitChar d ≠ '-' := by
  decide

theorem digitChar_ne_zero : ∀ d < 10, d ≠ 0 → digitChar d ≠ '0' := by
  decide

theorem printNatFuel_ne_nil (fuel n : Nat) (h : n < fuel) :
    printNatFuel fuel n ≠ [] := by
  match fuel with
  | f + 1 =>
      unfold printNatFuel
      split
      · simp
      · simp

theorem printNatFuel_digits (fuel : Nat) :
    ∀ n, n < fuel → ∀ c ∈ printNatFuel fuel n, ∃ d, d < 10 ∧ c = digitChar d := by
  induction fuel with
  | zero => omega
  | succ f ih =>
      intro n hn c hc
      unfold printNatFuel at hc
      split at hc
      · rename_i h10
        simp only [List.mem_cons, List.not_mem_nil, or_false] at hc
        exact ⟨n, h10, hc⟩
      · rename_i h10
        rcases List.mem_append.mp hc with hc | hc
        · exact ih (n / 10) (by omega) c hc
        · simp only [List.mem_cons, List.not_mem_nil, or_false] at hc
          exact ⟨n % 10, by omega, hc⟩

theorem printNatFuel_head_ne_zero (fuel : Nat) :
    ∀ n, n < fuel → 1 ≤ n → ∀ c cs, printNatFuel fuel n = c :: cs →
      c ≠ '0' := by
  induction fuel with
  | zero => omega
  | succ f ih =>
      intro n hn h1 c cs hc
      unfold printNatFuel at hc
      split at hc
      · rename_i h10
        simp only [List.cons.injEq] at hc
        rw [← hc.1]
        exact digitChar_ne_zero n h10 (by omega)
      · rename_i h10
        have hsub : n / 10 < f := by omega
        have hne := printNatFuel_ne_nil f (n / 10) hsub
        match hpf : printNatFuel f (n / 10) with
        | [] => exact absurd hpf hne
        | c' :: cs' =>
            rw [hpf] at hc
            simp only [List.cons_append, List.cons.injEq] at hc
            rw [← hc.1]
            exact ih (n / 10) hsub (by omega) c' cs' hpf

theorem digitsVal_cons (acc : Nat) (c : Char) (cs : JStr) :
    digitsVal acc (c :: cs) = digitsVal (acc * 10 + (c.toNat - 48)) cs := rfl

theorem digitsVal_printNatFuel (fuel : Nat) :
    ∀ n acc, n < fuel →
      digitsVal acc (printNatFuel fuel n) =
        acc * 10 ^ (printNatFuel fuel n).length + n := by
  induction fuel with
  | zero => omega
  | succ f ih =>
      intro n acc hn
      unfold printNatFuel
      split
      · rename_i h10
        have hv : (digitChar n).toNat - 48 = n := (digitChar_facts n h10).2.1
        simp [digitsVal, hv]
      · rename_i h10
        have hsub : n / 10 < f := by omega
        have hv : (digitChar (n % 10)).toNat - 48 = n % 10 :=
          (digitChar_facts (n % 10) (by omega)).2.1
        unfold digitsVal at *
        rw [List.foldl_append]
        simp only [List.foldl_cons, List.foldl_nil]
        rw [ih (n / 10) acc hsub, hv, List.length_append]
        simp only [List.length_cons, List.length_nil]
        rw [pow_succ]
        ring_nf
        omega

theorem printNat_digits (n : Nat) :
    ∀ c ∈ printNat n, ∃ d, d < 10 ∧ c = digitChar d :=
  printNatFuel_digits (n + 1) n (by omega)

theorem digitsVal_printNat (n : Nat) : digitsVal 0 (printNat n) = n := by
  have := digitsVal_printNatFuel (n + 1) n 0 (by omega)
  simpa using this

/-! ### `parseNumber` on a printed integer -/

/-- The continuation after a printed number must not begin with a
digit, `.`, `e` or `E`. -/
def numStop : JStr → Prop
  | [] => True
  | c :: _ => c.isDigit = false ∧ c ≠ '.' ∧ c ≠ 'e' ∧ c ≠ 'E'

theorem takeWhile_append_stop (p : Char → Bool) (l rest : JStr)
    (hl : ∀ c ∈ l, p c = true)
    (hr : ∀ c cs, rest = c :: cs → p c = false) :
    (l ++ rest).takeWhile p = l ∧ (l ++ rest).dropWhile p = rest := by
  induction l with
  | nil =>
      match rest with
      | [] => exact ⟨rfl, rfl⟩
      | c :: t =>
          simp only [List.nil_append, List.takeWhile, List.dropWhile]
          rw [hr c t rfl]
          exact ⟨rfl, rfl⟩
  | cons c l ih =>
      have hc := hl c (by simp)
      have hrec := ih (fun x hx => hl x (by simp [hx]))
      simp only [List.cons_append, List.takeWhile, List.dropWhile, hc,
        List.append_eq]
      exact ⟨by rw [hrec.1], hrec.2⟩

theorem parseNumCore_printNat (m : Nat) (rest : JStr) (hstop : numStop rest) :
    parseNumCore (printNat m ++ rest) = some (m, rest) := by
  have hnd : ∀ c cs, rest = c :: cs → c.isDigit = false :=
    fun c cs h => (h ▸ hstop).1
  by_cases hm : m = 0
  · subst hm
    have h0 : printNat 0 = ['0'] := rfl
    rw [h0]
    show parseNumCore ('0' :: rest) = some (0, rest)
    unfold parseNumCore
    dsimp only
    rw [if_pos rfl]
    match rest with
    | [] => rfl
    | c :: t =>
        dsimp only
        rw [hnd c t rfl]
        rfl
  · have hne := printNatFuel_ne_nil (m + 1) m (by omega)
    match hpn : printNat m with
    | [] => exact absurd hpn hne
    | c :: cs =>
        obtain ⟨d, hd10, hcd⟩ := by
          have := printNat_digits m c
          rw [hpn] at this
          exact this (by simp)
        have hdigit : c.isDigit = true := by
          rw [hcd]; exact (digitChar_facts d hd10).1
        have hzero : c ≠ '0' :=
          printNatFuel_head_ne_zero (m + 1) m (by omega) (by omega) c cs hpn
        have hcsdig : ∀ x ∈ cs, x.isDigit = true := by
          intro x hx
          obtain ⟨d', hd', hxd⟩ := by
            have := printNat_digits m x
            rw [hpn] at this
            exact this (by simp [hx])
          rw [hxd]
          exact (digitChar_facts d' hd').1
        have htw := takeWhile_append_stop Char.isDigit cs rest hcsdig hnd
        simp only [List.cons_append, parseNumCore]
        rw [if_pos hdigit, if_neg hzero, htw.1, htw.2]
        have hval : digitsVal (c.toNat - 48) cs = m := by
          have := digitsVal_printNat m
          rw [hpn, digitsVal_cons] at this
          simpa using this
        rw [hval]

theorem printInt_head (n : Int) :
    ∃ c cs, printInt n = c :: cs ∧
      (c = '-' ∨ ∃ d, d < 10 ∧ c = digitChar d) := by
  unfold printInt
  split
  · exact ⟨'-', printNat n.natAbs, rfl, Or.inl rfl⟩
  · have hne := printNatFuel_ne_nil (n.toNat + 1) n.toNat (by omega)
    match hpn : printNat n.toNat with
    | [] => exact absurd hpn hne
    | c :: cs =>
        refine ⟨c, cs, rfl, Or.inr ?_⟩
        have := printNat_digits n.toNat c
        rw [hpn] at this
        exact this (by simp)

theorem parseNumber_printInt (n : Int) (rest : JStr) (hstop : numStop rest) :
    parseNumber (printInt n ++ rest) = some (n, rest) := by
  have htail : parseNumTailOk rest = true := by
    match rest with
    | [] => rfl
    | c :: t =>
        obtain ⟨-, h1, h2, h3⟩ := hstop
        simp [parseNumTailOk, h1, h2, h3]
  by_cases hn : n < 0
  · have hp : printInt n = '-' :: printNat n.natAbs := by
      unfold printInt
      rw [if_pos hn]
    rw [hp]
    show parseNumber ('-' :: (printNat n.natAbs ++ rest)) = some (n, rest)
    unfold parseNumber
    dsimp only
    rw [if_pos rfl, parseNumCore_printNat n.natAbs rest hstop]
    dsimp only
    rw [htail]
    simp only [if_true]
    congr 1
    have : -((n.natAbs : Int)) = n := by omega
    rw [this]
  · have hp : printInt n = printNat n.toNat := by
      unfold printInt
      rw [if_neg hn]
    have hne := printNatFuel_ne_nil (n.toNat + 1) n.toNat (by omega)
    match hpn : printNat n.toNat with
    | [] => exact absurd hpn hne
    | c :: cs =>
        obtain ⟨d, hd10, hcd⟩ := by
          have := printNat_digits n.toNat c
          rw [hpn] at this
          exact this (by simp)
        have hcm : c ≠ '-' := by
          rw [hcd]
          exact (digitChar_facts d hd10).2.2.2.2.2.2.2.2.2.2
        rw [hp, hpn]
        show parseNumber (c :: (cs ++ rest)) = some (n, rest)
        unfold parseNumber
        dsimp only
        rw [if_neg hcm]
        have hcore : parseNumCore (c :: (cs ++ rest)) = some (n.toNat, rest) := by
          have := parseNumCore_printNat n.toNat rest hstop
          rw [hpn] at this
          simpa using this
        rw [hcore]
        dsimp only
        rw [htail]
        simp only [if_true]
        congr 1
        have : ((n.toNat : Nat) : Int) = n := by omega
        rw [this]

/-! ### Parsing a stringified `{iat, exp}` payload -/

theorem parseCore_pv_num (f : Nat) (n : Int) (rest : JStr)
    (hstop : numStop rest) :
    parseCore (f + 1) (.pv (printInt n ++ rest)) =
      some (.rv (.num n) rest) := by
  obtain ⟨c, cs, hpc, hc⟩ := printInt_head n
  have hni : isJsonWs c = false ∧ c ≠ '\x7b' ∧ c ≠ '[' ∧ c ≠ '"' ∧
      c ≠ 't' ∧ c ≠ 'f' ∧ c ≠ 'n' := by
    rcases hc with rfl | ⟨d, hd, rfl⟩
    · exact ⟨by decide, by decide, by decide, by decide, by decide,
        by decide, by decide⟩
    · have hf := digitChar_facts d hd
      exact ⟨hf.2.2.2.1, hf.2.2.2.2.1, hf.2.2.2.2.2.1, hf.2.2.2.2.2.2.1,
        hf.2.2.2.2.2.2.2.1, hf.2.2.2.2.2.2.2.2.1, hf.2.2.2.2.2.2.2.2.2.1⟩
  rw [hpc, List.cons_append]
  have hskip : skipWs (c :: (cs ++ rest)) = c :: (cs ++ rest) := by
    unfold skipWs
    simp [List.dropWhile, hni.1]
  simp only [parseCore]
  rw [hskip]
  dsimp only
  rw [if_neg hni.2.1, if_neg hni.2.2.1, if_neg hni.2.2.2.1,
    if_neg hni.2.2.2.2.1, if_neg hni.2.2.2.2.2.1, if_neg hni.2.2.2.2.2.2]
  rw [← List.cons_append, ← hpc, parseNumber_printInt n rest hstop]

theorem parseCore_members_exp (g : Nat) (b : Int) :
    parseCore (g + 2) (.pmembers
      ('"' :: 'e' :: 'x' :: 'p' :: '"' :: ':' :: (printInt b ++ ['\x7d']))) =
      some (.rmembers [("exp".data, .num b)] []) := by
  have h1 : parseCore (g + 1) (.pv (printInt b ++ ['\x7d'])) =
      some (.rv (.num b) ['\x7d']) :=
    parseCore_pv_num g b ['\x7d'] ⟨by decide, by decide, by decide, by decide⟩
  calc parseCore (g + 2) (.pmembers
        ('"' :: 'e' :: 'x' :: 'p' :: '"' :: ':' :: (printInt b ++ ['\x7d'])))
      = (match parseCore (g + 1) (.pv (printInt b ++ ['\x7d'])) with
         | some (.rv v rest3) =>
             match skipWs rest3 with
             | ',' :: rest4 =>
                 (match parseCore (g + 1) (.pmembers rest4) with
                  | some (.rmembers fs rest5) =>
                      some (.rmembers (("exp".data, v) :: fs) rest5)
                  | _ => none)
             | '\x7d' :: rest4 => some (.rmembers [("exp".data, v)] rest4)
             | _ => none
         | _ => none) := rfl
    _ = some (.rmembers [("exp".data, .num b)] []) := by
        rw [h1]
        rfl

theorem parseCore_members_iat_exp (g : Nat) (a b : Int) :
    parseCore (g + 3) (.pmembers
      ('"' :: 'i' :: 'a' :: 't' :: '"' :: ':' :: (printInt a ++
        (',' :: '"' :: 'e' :: 'x' :: 'p' :: '"' :: ':' ::
          (printInt b ++ ['\x7d']))))) =
      some (.rmembers [("iat".data, .num a), ("exp".data, .num b)] []) := by
  have h1 : parseCore (g + 2) (.pv (printInt a ++
      (',' :: '"' :: 'e' :: 'x' :: 'p' :: '"' :: ':' ::
        (printInt b ++ ['\x7d'])))) =
      some (.rv (.num a) (',' :: '"' :: 'e' :: 'x' :: 'p' :: '"' :: ':' ::
        (printInt b ++ ['\x7d']))) :=
    parseCore_pv_num (g + 1) a _ ⟨by decide, by decide, by decide, by decide⟩
  have h2 := parseCore_members_exp g b
  calc parseCore (g + 3) (.pmembers
        ('"' :: 'i' :: 'a' :: 't' :: '"' :: ':' :: (printInt a ++
          (',' :: '"' :: 'e' :: 'x' :: 'p' :: '"' :: ':' ::
            (printInt b ++ ['\x7d'])))))
      = (match parseCore (g + 2) (.pv (printInt a ++
          (',' :: '"' :: 'e' :: 'x' :: 'p' :: '"' :: ':' ::
            (printInt b ++ ['\x7d'])))) with
         | some (.rv v rest3) =>
             match skipWs rest3 with
             | ',' :: rest4 =>
                 (match parseCore (g + 2) (.pmembers rest4) with
                  | some (.rmembers fs rest5) =>
                      some (.rmembers (("iat".data, v) :: fs) rest5)
                  | _ => none)
             | '\x7d' :: rest4 => some (.rmembers [("iat".data, v)] rest4)
             | _ => none
         | _ => none) := rfl
    _ = (match parseCore (g + 2) (.pmembers
          ('"' :: 'e' :: 'x' :: 'p' :: '"' :: ':' ::
            (printInt b ++ ['\x7d']))) with
         | some (.rmembers fs rest5) =>
             some (.rmembers (("iat".data, .num a) :: fs) rest5)
         | _ => none) := by
        rw [h1]
        rfl
    _ = some (.rmembers [("iat".data, .num a), ("exp".data, .num b)] []) := by
        rw [h2]

theorem stringifyIatExp_eq (a b : Int) :
    stringifyIatExp a b =
      '\x7b' :: '"' :: 'i' :: 'a' :: 't' :: '"' :: ':' :: (printInt a ++
        (',' :: '"' :: 'e' :: 'x' :: 'p' :: '"' :: ':' ::
          (printInt b ++ ['\x7d']))) := by
  simp [stringifyIatExp]

theorem parseCore_stringify (g : Nat) (a b : Int) :
    parseCore (g + 4) (.pv (stringifyIatExp a b)) =
      some (.rv (.obj [("iat".data, .num a), ("exp".data, .num b)]) []) := by
  rw [stringifyIatExp_eq]
  calc parseCore (g + 4) (.pv
        ('\x7b' :: '"' :: 'i' :: 'a' :: 't' :: '"' :: ':' :: (printInt a ++
          (',' :: '"' :: 'e' :: 'x' :: 'p' :: '"' :: ':' ::
            (printInt b ++ ['\x7d'])))))
      = (match parseCore (g + 3) (.pmembers
          ('"' :: 'i' :: 'a' :: 't' :: '"' :: ':' :: (printInt a ++
            (',' :: '"' :: 'e' :: 'x' :: 'p' :: '"' :: ':' ::
              (printInt b ++ ['\x7d']))))) with
         | some (.rmembers fs rest1) => some (.rv (.obj fs) rest1)
         | _ => none) := rfl
    _ = some (.rv (.obj [("iat".data, .num a), ("exp".data, .num b)]) []) := by
        rw [parseCore_members_iat_exp g a b]

theorem jsonParse_stringify (a b : Int) :
    jsonParse (stringifyIatExp a b) =
      some (.obj [("iat".data, .num a), ("exp".data, .num b)]) := by
  unfold jsonParse
  obtain ⟨g, hg⟩ : ∃ g, (stringifyIatExp a b).length + 1 = g + 4 := by
    refine ⟨(stringifyIatExp a b).length - 3, ?_⟩
    have h3 : 3 ≤ (stringifyIatExp a b).length := by
      rw [stringifyIatExp_eq]
      simp
    omega
  rw [hg, parseCore_stringify g a b]
  rfl

theorem printInt_ascii (n : Int) : ∀ c ∈ printInt n, c.toNat < 128 := by
  intro c hc
  unfold printInt at hc
  split at hc
  · rcases List.mem_cons.mp hc with rfl | hc
    · decide
    · obtain ⟨d, hd, rfl⟩ := printNat_digits _ c hc
      exact (digitChar_facts d hd).2.2.1
  · obtain ⟨d, hd, rfl⟩ := printNat_digits _ c hc
    exact (digitChar_facts d hd).2.2.1

theorem stringifyIatExp_ascii (a b : Int) :
    ∀ c ∈ stringifyIatExp a b, c.toNat < 128 := by
  intro c hc
  rw [stringifyIatExp_eq] at hc
  simp only [List.mem_cons, List.mem_append] at hc
  rcases hc with rfl | rfl | rfl | rfl | rfl | rfl | rfl | hc | hc
  · decide
  · decide
  · decide
  · decide
  · decide
  · decide
  · decide
  · exact printInt_ascii a c hc
  · rcases hc with rfl | rfl | rfl | rfl | rfl | rfl | rfl | hc | hc
    · decide
    · decide
    · decide
    · decide
    · decide
    · decide
    · decide
    · exact printInt_ascii b c hc
    · simp only [List.mem_cons, List.not_mem_nil, or_false] at hc
      rw [hc]
      decide

/-! ## C5 — negative TTL tokens and expiry rejection -/

/-- C5 (counterexample): with key `"k"`, `ttlMs = -1000` and creation
time `iat = 1000` (so `exp = iat + ttlMs = 0`), the minted token is
*accepted* — `next()` — at verification time 1000, at the creation
time itself: `payload.exp` is `0`, which is falsy in JavaScript, so
the expiry guard is skipped entirely.  The claim, which promises
rejection as expired for every negative `ttlMs` at any verification
time at or after creation, is therefore false as stated. -/
theorem c5_exp_zero_token_accepted :
    (-1000 : Int) < 0 ∧
      verify (statelessOpts "k".data) emptyStore
        (headerTokenReq (createStatelessToken (-1000) "k".data 1000))
        1000 = .next := by
  refine ⟨by decide, by decide⟩

set_option maxHeartbeats 1000000 in
/-- C5 (amended): for every key, negative `ttlMs`, creation time `iat`
and verification time `now ≥ iat`, the minted token has
`exp = iat + ttlMs < iat`, and — provided `exp ≠ 0` (JavaScript
truthiness of `payload.exp`) and the payload's MAC contains no `0x2E`
byte (so the `lastIndexOf` boundary scan and hence signature
verification succeed) — stateless verification rejects it as expired,
even immediately after creation. -/
theorem c5_negative_ttl_rejected (key : JStr) (ttlMs iat now : Int)
    (httl : ttlMs < 0) (hexp0 : iat + ttlMs ≠ 0) (hnow : iat ≤ now)
    (hmac : 0x2E ∉ hmacSha256 (utf8 key)
      (utf8 (stringifyIatExp iat (iat + ttlMs)))) :
    iat + ttlMs < iat ∧
      verify (statelessOpts key) emptyStore
        (headerTokenReq (createStatelessToken ttlMs key iat)) now =
        .status 403 "CSRF token expired.".data := by
  refine ⟨by omega, ?_⟩
  have hascii := stringifyIatExp_ascii iat (iat + ttlMs)
  have hPne : stringifyIatExp iat (iat + ttlMs) ≠ [] := by
    rw [stringifyIatExp_eq]
    simp
  have hrt := verify_sign_roundtrip _ key hascii hPne hmac
  rw [jsonParse_stringify] at hrt
  have hbytes : ∀ x ∈ utf8 (stringifyIatExp iat (iat + ttlMs)) ++ [0x2E] ++
      hmacSha256 (utf8 key) (utf8 (stringifyIatExp iat (iat + ttlMs))),
      x < 256 := by
    intro x hx
    rcases List.mem_append.mp hx with hx | hx
    · rcases List.mem_append.mp hx with hx | hx
      · exact utf8_lt _ x hx
      · simp only [List.mem_cons, List.not_mem_nil, or_false] at hx
        omega
    · exact hmacSha256_lt _ _ x hx
  have htokne : createStatelessToken ttlMs key iat ≠ [] := by
    show signPayload (stringifyIatExp iat (iat + ttlMs)) key ≠ []
    unfold signPayload
    exact encode_ne_nil _ hbytes (by simp)
  have htokeq : createStatelessToken ttlMs key iat =
      signPayload (stringifyIatExp iat (iat + ttlMs)) key := rfl
  unfold verify
  rw [if_neg (show ¬ (headerTokenReq
      (createStatelessToken ttlMs key iat)).method ∈
      (statelessOpts key).allowedMethods by
    simp only [headerTokenReq, statelessOpts]
    decide)]
  dsimp only [statelessOpts, headerTokenReq, reqGet, List.lookup]
  simp only [Bool.false_eq_true, if_false]
  have hbeq : ((['x', '-', 'c', 's', 'r', 'f', '-', 'p', 'l', 'u', 's'] : JStr)
      == ['x', '-', 'c', 's', 'r', 'f', '-', 'p', 'l', 'u', 's']) = true := by
    decide
  rw [hbeq]
  dsimp only
  have hie : (createStatelessToken ttlMs key iat).isEmpty = false := by
    cases htok : createStatelessToken ttlMs key iat with
    | nil => exact absurd htok htokne
    | cons c t => rfl
  have hjsor : jsOrS (some (createStatelessToken ttlMs key iat))
      (jsOrS none none) = some (createStatelessToken ttlMs key iat) := by
    simp only [jsOrS, truthyS, hie, Bool.not_false, if_true]
  have htr : truthyS (some (createStatelessToken ttlMs key iat)) = true := by
    simp only [truthyS, hie, Bool.not_false]
  rw [hjsor, htr]
  dsimp only [Option.getD]
  simp only [Bool.not_true, Bool.false_eq_true, if_false, if_true]
  rw [htokeq, hrt]
  dsimp only
  simp only [Bool.not_true, Bool.false_eq_true, if_false]
  simp only [jsTruthy, jsGet, List.reverse_cons, List.reverse_nil,
    List.nil_append, List.cons_append, List.append_nil, List.find?,
    beq_self_eq_true, Option.map_some]
  have hne : (decide (iat + ttlMs ≠ 0)) = true := by
    simp [hexp0]
  have hgt : (decide (now > iat + ttlMs)) = true := by
    simp only [decide_eq_true_eq]
    omega
  simp only [Option.map_some']
  simp only [hne, hgt]
  simp

/-- Witness for C5's amended theorem: key `"key"`, `ttlMs = -1000`,
creation time 5000, verified at 5000. -/
theorem c5_negative_ttl_rejected_witness :
    verify (statelessOpts "key".data) emptyStore
      (headerTokenReq (createStatelessToken (-1000) "key".data 5000))
      5000 = .status 403 "CSRF token expired.".data :=
  (c5_negative_ttl_rejected "key".data (-1000) 5000 5000 (by decide)
    (by decide) (by decide) (by decide)).2

end CSRFPlus
